import Mathlib

/-!
Verification of the PennyLane QAOA module specification.

The repository ships the test suite of the `pennylane.qaoa` module
(`src/tests/test_qaoa.py`); the module itself (`pennylane/qaoa/cost.py`,
`mixers.py`, `layers.py`, `cycle.py`) is not part of the source tree.  The
definitions below are therefore modelled from the specification, with the
worked examples of the test suite pinning concrete orderings, coefficients
and sign conventions (the spec designates those examples as ground truth).

Data model: a Hamiltonian is an ordered list of (rational coefficient,
operator) pairs; an operator is either a bare single-qubit Pauli or a
tensor product of single-qubit Pauli factors, mirroring the host
framework's bare-operator/Tensor class split.  Graphs are node lists plus
edge lists in iterator order.
-/

namespace PLQaoa

/-- Single-qubit Pauli axes, including the identity. -/
inductive Pauli where
  | I
  | X
  | Y
  | Z
deriving DecidableEq, Repr

/-- Modelled from the spec: the host framework's operator classes.  A bare
single-qubit operator (`qml.PauliX(w)`, `qml.Identity(w)`, ...) or a tensor
product of single-qubit factors (`op1 @ op2`). -/
inductive Op (α : Type) where
  | single : Pauli → α → Op α
  | tensor : List (Pauli × α) → Op α
deriving DecidableEq, Repr

/-- The ordered factor list of an operator (a bare operator is one factor). -/
def Op.factors {α : Type} : Op α → List (Pauli × α)
  | .single p w => [(p, w)]
  | .tensor l => l

/-- The ordered wire list of an operator (`op.wires`). -/
def Op.wires {α : Type} (o : Op α) : List α :=
  o.factors.map Prod.snd

/-- Whether the operator is an instance of the bare `Identity` class. -/
def Op.isId {α : Type} : Op α → Bool
  | .single .I _ => true
  | _ => false

/-- The class tag of an operator: one tag per bare Pauli class, one for
tensor products (`type(op)` in the host framework). -/
inductive OpType where
  | idT
  | xT
  | yT
  | zT
  | tensorT
deriving DecidableEq, Repr

/-- Class tag of a Pauli. -/
def Pauli.tag : Pauli → OpType
  | .I => .idT
  | .X => .xT
  | .Y => .yT
  | .Z => .zT

/-- Class tag of an operator. -/
def Op.tag {α : Type} : Op α → OpType
  | .single p _ => p.tag
  | .tensor _ => .tensorT

/-- Tensor composition `op1 @ op2`: factor lists are concatenated (the
framework's `Tensor` flattens nested products). -/
def opTensor {α : Type} (o1 o2 : Op α) : Op α :=
  .tensor (o1.factors ++ o2.factors)

/-- A Hamiltonian: ordered list of (coefficient, operator) terms. -/
abbrev Ham (α : Type) := List (ℚ × Op α)

/-- A graph as consumed by the module: node list and edge list, both in the
iterator order of the host graph library. -/
structure Gr (α : Type) where
  nodes : List α
  edges : List (α × α)

/-- Errors raised by the module's input validation. -/
inductive QErr where
  | notAGraph
  | invalidBit
  | invalidRewardEntry
  | asymmetricReward
  | notDirected
  | selfLoop
  | missingWeight
  | notHamiltonian
  | notDiagonal
deriving DecidableEq, Repr

/-- Input to `net_flow_constraint`: a directed or an undirected graph (the
host library distinguishes them by the presence of `in_edges`/`out_edges`). -/
inductive NxInput where
  | directed : Gr ℕ → NxInput
  | undirected : Gr ℕ → NxInput

/-! ## The cycle submodule (`pennylane/qaoa/cycle.py`), wires are `ℕ` -/

/-- Modelled from the spec: `edges_to_wires(graph)` returns the mapping
`{edge: i for i, edge in enumerate(graph.edges)}` as an ordered association
list keyed by edges. -/
def edges_to_wires (g : Gr ℕ) : List ((ℕ × ℕ) × ℕ) :=
  g.edges.enum.map (fun p => (p.2, p.1))

/-- Modelled from the spec: `wires_to_edges(graph)` returns the inverse
mapping `{i: edge for i, edge in enumerate(graph.edges)}`. -/
def wires_to_edges (g : Gr ℕ) : List (ℕ × (ℕ × ℕ)) :=
  g.edges.enum

/-- The wire index the module associates to an edge: the dictionary lookup
`edges_to_wires(graph)[edge]`, i.e. the position of the edge in the edge
iterator (first occurrence). -/
def edgeWire (g : Gr ℕ) (e : ℕ × ℕ) : ℕ :=
  g.edges.indexOf e

/-- `graph.out_edges(node)`: edges leaving `v`, in iterator order. -/
def outEdges (g : Gr ℕ) (v : ℕ) : List (ℕ × ℕ) :=
  g.edges.filter (fun e => e.1 = v)

/-- `graph.in_edges(node)`: edges entering `v`, in iterator order. -/
def inEdges (g : Gr ℕ) (v : ℕ) : List (ℕ × ℕ) :=
  g.edges.filter (fun e => e.2 = v)

/-- One entry of the pairwise-product expansion: identity factors are
absorbed, a product of two operators of the same class on the same wires
collapses to `Identity(0)`, anything else is the tensor composition ordered
by first wire (pinned by `test_square_hamiltonian_terms`, where the cross
product of `Z1` with `Z0` appears as `PauliZ(0) @ PauliZ(1)`). -/
def squareEntry (o1 o2 : Op ℕ) : Op ℕ :=
  if o1.isId then o2
  else if o2.isId then o1
  else if o1.wires = o2.wires ∧ o1.tag = o2.tag then Op.single .I 0
  else if o2.wires.headD 0 < o1.wires.headD 0 then opTensor o2 o1
  else opTensor o1 o2

/-- Modelled from the spec: `_square_hamiltonian_terms(coeffs, ops)` computes
the full pairwise-product expansion of the linear form, in row-major pair
order; entry behaviour per `squareEntry` (pinned by
`test_square_hamiltonian_terms`). -/
def _square_hamiltonian_terms (coeffs : List ℚ) (ops : List (Op ℕ)) :
    List ℚ × List (Op ℕ) :=
  let pairs := coeffs.zip ops
  let prods := pairs.flatMap (fun p1 =>
    pairs.map (fun p2 => (p1.1 * p2.1, squareEntry p1.2 p2.2)))
  (prods.map Prod.fst, prods.map Prod.snd)

/-- Numeric tag used to sort Pauli names inside a duplicate-collection key. -/
def Pauli.toNat : Pauli → ℕ
  | .I => 0
  | .X => 1
  | .Y => 2
  | .Z => 3

/-- Key under which `_collect_duplicates` identifies equal terms: the sorted
wire list together with the sorted list of factor names (so `Z0 @ Z1` and
`Z1 @ Z0` merge, while `Identity(0)` and `PauliZ(0)` stay distinct). -/
def collectKey (o : Op ℕ) : List ℕ × List ℕ :=
  (o.wires.insertionSort (· ≤ ·),
   (o.factors.map (fun pw => pw.1.toNat)).insertionSort (· ≤ ·))

/-- Fold one term into the accumulated list: add the coefficient to the
first existing term with the same key, else append. -/
def insertTerm (acc : List (ℚ × Op ℕ)) (c : ℚ) (o : Op ℕ) : List (ℚ × Op ℕ) :=
  match acc with
  | [] => [(c, o)]
  | (c', o') :: rest =>
    if collectKey o' = collectKey o then (c' + c, o') :: rest
    else (c', o') :: insertTerm rest c o

/-- Modelled from the spec: `_collect_duplicates(coeffs, ops)` merges terms
acting identically (same factor names on the same wire set), in first
occurrence order, and drops terms whose collected coefficient is zero
(pinned by `test_inner_net_flow_constraint_hamiltonian`). -/
def _collect_duplicates (coeffs : List ℚ) (ops : List (Op ℕ)) :
    List ℚ × List (Op ℕ) :=
  let merged := (coeffs.zip ops).foldl (fun acc co => insertTerm acc co.1 co.2) []
  let kept := merged.filter (fun co => co.1 ≠ 0)
  (kept.map Prod.fst, kept.map Prod.snd)

/-- The linear flow-balance form at a node: `(d_out - d_in) * Identity(0)`
followed by `-Z` on each outgoing-edge wire and `+Z` on each incoming-edge
wire. -/
def innerCoeffs (g : Gr ℕ) (v : ℕ) : List ℚ :=
  (((outEdges g v).length : ℚ) - ((inEdges g v).length : ℚ)) ::
    ((outEdges g v).map (fun _ => (-1 : ℚ)) ++ (inEdges g v).map (fun _ => (1 : ℚ)))

/-- Operator list parallel to `innerCoeffs`. -/
def innerOps (g : Gr ℕ) (v : ℕ) : List (Op ℕ) :=
  Op.single .I 0 ::
    ((outEdges g v).map (fun e => Op.single .Z (edgeWire g e)) ++
     (inEdges g v).map (fun e => Op.single .Z (edgeWire g e)))

/-- Modelled from the spec: `_inner_net_flow_constraint_hamiltonian(graph,
node)` squares the linear flow-balance form at `node` and collects duplicate
terms. -/
def _inner_net_flow_constraint_hamiltonian (g : Gr ℕ) (v : ℕ) : Ham ℕ :=
  let sq := _square_hamiltonian_terms (innerCoeffs g v) (innerOps g v)
  let col := _collect_duplicates sq.1 sq.2
  col.1.zip col.2

/-- The Hamiltonian summed by `net_flow_constraint` over all nodes. -/
def netFlowHam (g : Gr ℕ) : Ham ℕ :=
  g.nodes.flatMap (fun v => _inner_net_flow_constraint_hamiltonian g v)

/-- Modelled from the spec: `net_flow_constraint(graph)` sums the per-node
penalty over all nodes and fails if the graph is not directed. -/
def net_flow_constraint : NxInput → Except QErr (Ham ℕ)
  | .directed g => .ok (netFlowHam g)
  | .undirected _ => .error .notDirected

/-- The four three-body terms added per alternate length-2 path: the wires
are (edge, out-edge of the path, in-edge of the path) and the pattern is
`(XXX + YYX + YXY - XYY) / 4`. -/
def blockTerms (we wa wb : ℕ) : Ham ℕ :=
  [ (1/4, Op.tensor [(.X, we), (.X, wa), (.X, wb)]),
    (1/4, Op.tensor [(.Y, we), (.Y, wa), (.X, wb)]),
    (1/4, Op.tensor [(.Y, we), (.X, wa), (.Y, wb)]),
    (-(1/4), Op.tensor [(.X, we), (.Y, wa), (.Y, wb)]) ]

/-- Modelled from the spec: `_partial_cycle_mixer(graph, edge)` adds, for
every node `k` outside `edge = (i, j)` such that `(i, k)` and `(k, j)` are
edges, the four-term block on the corresponding wires (pinned by
`test_partial_cycle_mixer_complete`). -/
def _partial_cycle_mixer (g : Gr ℕ) (e : ℕ × ℕ) : Ham ℕ :=
  g.nodes.flatMap (fun k =>
    if k = e.1 ∨ k = e.2 then []
    else if (e.1, k) ∈ g.edges ∧ (k, e.2) ∈ g.edges then
      blockTerms (edgeWire g e) (edgeWire g (e.1, k)) (edgeWire g (k, e.2))
    else [])

/-- Modelled from the spec: `cycle_mixer(graph)` sums the partial mixer over
all edges of the directed graph. -/
def cycle_mixer (g : Gr ℕ) : Ham ℕ :=
  g.edges.flatMap (fun e => _partial_cycle_mixer g e)

/-! ## Loss Hamiltonian (weighted directed graphs) -/

/-- A directed graph whose edge iterator also carries optional weight data
(`graph.edges(data=True)`); `weights` is the edge-attribute dictionary. -/
structure WGr extends Gr ℕ where
  weights : List ((ℕ × ℕ) × ℚ)

/-- Weight attribute of an edge, when present. -/
def WGr.weightOf (g : WGr) (e : ℕ × ℕ) : Option ℚ :=
  g.weights.lookup e

/-- Per-edge pass of `loss_hamiltonian`: on each edge, in iterator order,
raise on a self-loop, then raise if the weight attribute is missing, else
record the weight on the edge's wire. -/
def lossTermsAux (g : WGr) : List (ℕ × ℕ) → Except QErr (List (ℚ × Op ℕ))
  | [] => .ok []
  | e :: rest =>
    if e.1 = e.2 then .error .selfLoop
    else
      match g.weightOf e with
      | none => .error .missingWeight
      | some w =>
        (lossTermsAux g rest).map
          (fun l => (w, Op.single .Z (edgeWire g.toGr e)) :: l)

/-- The computable core of `loss_hamiltonian`: weights still raw. -/
def lossTerms (g : WGr) : Except QErr (List (ℚ × Op ℕ)) :=
  lossTermsAux g g.edges

/-- Modelled from the spec: `loss_hamiltonian(graph)` returns one `PauliZ`
term per edge whose coefficient is the natural logarithm of the edge's
weight; fails with a self-loop error on a self-loop and with a missing-data
error on an edge without weight data, checked per edge in iterator order. -/
noncomputable def loss_hamiltonian (g : WGr) : Except QErr (List (ℝ × Op ℕ)) :=
  (lossTerms g).map (fun l => l.map (fun co => (Real.log (co.1 : ℝ), co.2)))

/-! ## Problem and mixer Hamiltonian builders (`cost.py` / `mixers.py`) -/

/-- The graph argument of a builder: either an instance of the graph
abstraction or a plain edge list (any non-graph value the tests pass). -/
inductive GraphInput (α : Type) where
  | graph : Gr α → GraphInput α
  | edgeList : List (α × α) → GraphInput α

/-- Neighbours of a node, in adjacency insertion order (the order in which
edges touching the node appear in the edge iterator). -/
def neighborsOf {α : Type} [DecidableEq α] (g : Gr α) (v : α) : List α :=
  g.edges.filterMap (fun e =>
    if e.1 = v then some e.2 else if e.2 = v then some e.1 else none)

/-- All sublists of `l`, in the binary-counter order produced by
`itertools.product([identity, pauliz], ...)`: the first element varies
slowest. -/
def zSubsets {α : Type} : List α → List (List α)
  | [] => [[]]
  | x :: rest => zSubsets rest ++ (zSubsets rest).map (fun s => x :: s)

/-- Modelled from the spec: the terms `bit_flip_mixer` emits for one node:
`X_v` times the expanded projector onto each neighbour being in state `n`. -/
def bitFlipTerms {α : Type} [DecidableEq α] (g : Gr α) (n : ℕ) (v : α) : Ham α :=
  let nbrs := neighborsOf g v
  let sign : ℚ := if n = 0 then 1 else -1
  (zSubsets nbrs).map (fun s =>
    ((1/2 : ℚ) ^ nbrs.length * sign ^ s.length,
     if s.isEmpty then Op.single .X v
     else Op.tensor ((Pauli.X, v) :: s.map (fun w => (Pauli.Z, w)))))

/-- Modelled from the spec: `bit_flip_mixer(graph, b)` fails on a non-graph
input and on `b` outside `{0, 1}`, else sums the per-node terms. -/
def bit_flip_mixer {α : Type} [DecidableEq α] (gi : GraphInput α) (n : ℕ) :
    Except QErr (Ham α) :=
  match gi with
  | .edgeList _ => .error .notAGraph
  | .graph g =>
    if n ≠ 0 ∧ n ≠ 1 then .error .invalidBit
    else .ok (g.nodes.flatMap (bitFlipTerms g n))

/-- Modelled from the spec: `x_mixer(wires)` is the transverse-field mixer,
one `PauliX` of weight 1 per wire. -/
def x_mixer {α : Type} (wires : List α) : Ham α :=
  wires.map (fun w => ((1 : ℚ), Op.single .X w))

/-- Modelled from the spec: `xy_mixer(graph)` places `(XX + YY) / 2` on each
edge; fails on a non-graph input. -/
def xy_mixer {α : Type} (gi : GraphInput α) : Except QErr (Ham α) :=
  match gi with
  | .edgeList _ => .error .notAGraph
  | .graph g =>
    .ok (g.edges.flatMap (fun e =>
      [((1/2 : ℚ), opTensor (Op.single .X e.1) (Op.single .X e.2)),
       ((1/2 : ℚ), opTensor (Op.single .Y e.1) (Op.single .Y e.2))]))

/-- The terms of `bit_driver` (validation stripped): `Z_w` for `b = 1`,
`-Z_w` for `b = 0`, over the given wires. -/
def bitDriverTerms {α : Type} (wires : List α) (b : ℕ) : Ham α :=
  wires.map (fun w => ((if b = 1 then 1 else -1 : ℚ), Op.single .Z w))

/-- Modelled from the spec: `bit_driver(wires, b)` fails unless
`b ∈ {0, 1}`. -/
def bit_driver {α : Type} (wires : List α) (b : ℕ) : Except QErr (Ham α) :=
  if b ≠ 0 ∧ b ≠ 1 then .error .invalidBit
  else .ok (bitDriverTerms wires b)

/-- A reward entry must be one of the four 2-bit bitstrings. -/
def validRewardEntry (s : String) : Bool :=
  s = "00" || s = "01" || s = "10" || s = "11"

/-- Modelled from the spec: the Hamiltonian `edge_driver` builds once its
inputs are validated.  Rewarding everything or nothing gives identities on
the nodes; otherwise the reward set is reduced (drop `"01"`; a 2-element
remainder is replaced by its complement with flipped sign) to a single
representative pattern expanded over the edges (pinned by
`test_edge_driver_output`). -/
def edgeDriverTerms {α : Type} (g : Gr α) (reward : List String) : Ham α :=
  if reward.length = 0 ∨ reward.length = 4 then
    g.nodes.map (fun v => ((1 : ℚ), Op.single .I v))
  else
    let r1 := reward.dedup.filter (fun s => s ≠ "01")
    let rs : List String × ℚ :=
      if r1.length = 2 then ((["00", "10", "11"].filter (fun s => s ∉ r1)), 1)
      else (r1, -1)
    match rs.1 with
    | [] => []
    | p :: _ =>
      if p = "00" then
        g.edges.flatMap (fun e =>
          [(1/4 * rs.2, opTensor (Op.single .Z e.1) (Op.single .Z e.2)),
           (1/4 * rs.2, Op.single .Z e.1),
           (1/4 * rs.2, Op.single .Z e.2)])
      else if p = "10" then
        g.edges.map (fun e =>
          (-(1/2) * rs.2, opTensor (Op.single .Z e.1) (Op.single .Z e.2)))
      else
        g.edges.flatMap (fun e =>
          [(1/4 * rs.2, opTensor (Op.single .Z e.1) (Op.single .Z e.2)),
           (-(1/4) * rs.2, Op.single .Z e.1),
           (-(1/4) * rs.2, Op.single .Z e.2)])

/-- Modelled from the spec: `edge_driver(graph, reward)` validates the
reward entries, then the `"01"`/`"10"` symmetry, then the graph type, and
only then builds the Hamiltonian. -/
def edge_driver {α : Type} [DecidableEq α] (gi : GraphInput α)
    (reward : List String) : Except QErr (Ham α) :=
  if ¬ reward.all validRewardEntry then .error .invalidRewardEntry
  else if ("01" ∈ reward ∧ "10" ∉ reward) ∨ ("10" ∈ reward ∧ "01" ∉ reward) then
    .error .asymmetricReward
  else
    match gi with
    | .edgeList _ => .error .notAGraph
    | .graph g => .ok (edgeDriverTerms g reward)

/-- Fold one term into a Hamiltonian, merging with an existing structurally
identical operator (the framework's `Hamiltonian` addition simplifies). -/
def insertTermEq {α : Type} [DecidableEq α] (acc : Ham α) (c : ℚ) (o : Op α) :
    Ham α :=
  match acc with
  | [] => [(c, o)]
  | (c', o') :: rest =>
    if o' = o then (c' + c, o') :: rest
    else (c', o') :: insertTermEq rest c o

/-- Hamiltonian addition with duplicate-term merging, keeping first
occurrence order. -/
def hamAdd {α : Type} [DecidableEq α] (h1 h2 : Ham α) : Ham α :=
  (h1 ++ h2).foldl (fun acc co => insertTermEq acc co.1 co.2) []

/-- Scalar multiple of a Hamiltonian. -/
def scaleHam {α : Type} (q : ℚ) (h : Ham α) : Ham α :=
  h.map (fun co => (q * co.1, co.2))

/-- Ordered node pairs `(x, y)` with `x` before `y` in the node list. -/
def pairsAfter {α : Type} : List α → List (α × α)
  | [] => []
  | x :: rest => rest.map (fun y => (x, y)) ++ pairsAfter rest

/-- The complement graph on the same nodes. -/
def complementGr (g : Gr ℕ) : Gr ℕ :=
  ⟨g.nodes, (pairsAfter g.nodes).filter
    (fun e => e.1 ≠ e.2 ∧ (e.1, e.2) ∉ g.edges ∧ (e.2, e.1) ∉ g.edges)⟩

/-- Modelled from the spec: `maxcut(graph)` rewards cut edges (via the
`edge_driver` construction for the reward set `{"10", "01"}`) plus a
`-|E|/2` identity offset, paired with the transverse-field mixer; fails on
a non-graph input. -/
def maxcut (gi : GraphInput ℕ) : Except QErr (Ham ℕ × Ham ℕ) :=
  match gi with
  | .edgeList _ => .error .notAGraph
  | .graph g =>
    .ok (hamAdd (edgeDriverTerms g ["10", "01"])
          (g.edges.map (fun _ => ((-(1/2) : ℚ), Op.single .I 0))),
         x_mixer g.nodes)

/-- Modelled from the spec: `max_independent_set(graph, constrained)`.
Constrained: bit driver cost with the `b = 0` bit-flip mixer; unconstrained:
`3 * edge_driver(graph, {"10","01","00"}) + bit_driver(nodes, 1)` with the
transverse-field mixer.  Fails on a non-graph input. -/
def max_independent_set (gi : GraphInput ℕ) (constrained : Bool) :
    Except QErr (Ham ℕ × Ham ℕ) :=
  match gi with
  | .edgeList _ => .error .notAGraph
  | .graph g =>
    if constrained then
      .ok (bitDriverTerms g.nodes 1, g.nodes.flatMap (bitFlipTerms g 0))
    else
      .ok (hamAdd (scaleHam 3 (edgeDriverTerms g ["10", "01", "00"]))
             (bitDriverTerms g.nodes 1),
           x_mixer g.nodes)

/-- Modelled from the spec: `min_vertex_cover(graph, constrained)`, dual to
the independent-set builder (`b = 0` driver, `b = 1` bit-flip mixer,
reward set `{"11","10","01"}`).  Fails on a non-graph input. -/
def min_vertex_cover (gi : GraphInput ℕ) (constrained : Bool) :
    Except QErr (Ham ℕ × Ham ℕ) :=
  match gi with
  | .edgeList _ => .error .notAGraph
  | .graph g =>
    if constrained then
      .ok (bitDriverTerms g.nodes 0, g.nodes.flatMap (bitFlipTerms g 1))
    else
      .ok (hamAdd (scaleHam 3 (edgeDriverTerms g ["11", "10", "01"]))
             (bitDriverTerms g.nodes 0),
           x_mixer g.nodes)

/-- Modelled from the spec: `max_clique(graph, constrained)`: the
independent-set construction on the complement graph.  Fails on a non-graph
input. -/
def max_clique (gi : GraphInput ℕ) (constrained : Bool) :
    Except QErr (Ham ℕ × Ham ℕ) :=
  match gi with
  | .edgeList _ => .error .notAGraph
  | .graph g =>
    if constrained then
      .ok (bitDriverTerms g.nodes 1,
           g.nodes.flatMap (bitFlipTerms (complementGr g) 0))
    else
      .ok (hamAdd (scaleHam 3 (edgeDriverTerms (complementGr g) ["10", "01", "00"]))
             (bitDriverTerms g.nodes 1),
           x_mixer g.nodes)

/-! ## Circuit layer builders (`layers.py`) -/

/-- The argument of a layer builder: a Hamiltonian or some other value (the
tests pass a plain list of lists). -/
inductive LayerInput (α : Type) where
  | ham : Ham α → LayerInput α
  | rawLists : List (List ℚ) → LayerInput α

/-- A gate emitted by a layer: a multi-qubit Pauli rotation with an angle,
a Pauli word and a wire list. -/
inductive Gate (α : Type) where
  | pauliRot : ℚ → List Pauli → List α → Gate α
deriving DecidableEq, Repr

/-- `qaoa.layers._diagonal_terms`: every factor of every term is a `PauliZ`
or an `Identity`. -/
def _diagonal_terms {α : Type} (h : Ham α) : Bool :=
  h.all (fun co => co.2.factors.all (fun pw => pw.1 = .Z || pw.1 = .I))

/-- One Trotter step of `ApproxTimeEvolution(hamiltonian, t, 1)`: each term
of weight `c` becomes one `PauliRot` gate with angle `2 * t * c` about the
term's Pauli word, in term order. -/
def ApproxTimeEvolution {α : Type} (h : Ham α) (t : ℚ) : List (Gate α) :=
  h.map (fun co => .pauliRot (2 * t * co.1) (co.2.factors.map Prod.fst) co.2.wires)

/-- Modelled from the spec: `cost_layer(gamma, h)` fails when `h` is not a
Hamiltonian or has a non-diagonal term, else emits the rotation gates. -/
def cost_layer {α : Type} (gamma : ℚ) (li : LayerInput α) :
    Except QErr (List (Gate α)) :=
  match li with
  | .rawLists _ => .error .notHamiltonian
  | .ham h =>
    if ¬ _diagonal_terms h then .error .notDiagonal
    else .ok (ApproxTimeEvolution h gamma)

/-- Modelled from the spec: `mixer_layer(alpha, h)` fails when `h` is not a
Hamiltonian, else emits the rotation gates. -/
def mixer_layer {α : Type} (alpha : ℚ) (li : LayerInput α) :
    Except QErr (List (Gate α)) :=
  match li with
  | .rawLists _ => .error .notHamiltonian
  | .ham h => .ok (ApproxTimeEvolution h alpha)

/-- The state of the claims on `loss_hamiltonian`'s success path: one
`PauliZ` per edge on the edge's wire, with the natural logarithm of the
edge's weight as coefficient, in edge-iterator order. -/
def lossHamOk (g : WGr) : Prop :=
  ∃ l, loss_hamiltonian g = .ok l ∧ l.length = g.edges.length ∧
    ∀ (i : ℕ) (hi : i < g.edges.length),
      l[i]? = some (Real.log (((g.weightOf (g.edges.get ⟨i, hi⟩)).getD 0 : ℚ) : ℝ),
        Op.single .Z i)

/-! ## Semantics: basis-state energies and matrix entries

Basis states are assignments of a bit to every wire; the test suite's
`matrix(hamiltonian, n_wires)` helper is mirrored by `entryH`, its diagonal
(the expectation value of a diagonal Hamiltonian on a basis state, as
computed by `test_net_flow_constraint`) by `energy`. -/

/-- Diagonal matrix element `⟨b|P|b⟩` of one Pauli factor. -/
def pauliDiag : Pauli → Bool → ℚ
  | .I, _ => 1
  | .Z, b => if b then -1 else 1
  | .X, _ => 0
  | .Y, _ => 0

/-- Diagonal matrix entry `⟨s|O|s⟩` of an operator (factors multiply; exact
for the operators with pairwise distinct wires produced by the module). -/
def evalDiag (o : Op ℕ) (s : ℕ → Bool) : ℚ :=
  (o.factors.map (fun pw => pauliDiag pw.1 (s pw.2))).prod

/-- Energy of a Hamiltonian on a computational basis state: the
coefficient-weighted sum of the diagonal entries of its terms. -/
def energy (h : Ham ℕ) (s : ℕ → Bool) : ℚ :=
  (h.map (fun co => co.1 * evalDiag co.2 s)).sum

/-- Net flow of the selected edge set at a node: the number of selected
outgoing edges minus the number of selected incoming edges (an edge is
selected when the bit on its wire is set). -/
def netFlow (g : Gr ℕ) (s : ℕ → Bool) (v : ℕ) : ℤ :=
  (g.edges.countP (fun e => decide (e.1 = v) && s (edgeWire g e)) : ℤ) -
    (g.edges.countP (fun e => decide (e.2 = v) && s (edgeWire g e)) : ℤ)

/-- Number of selected wires among the edge wires `0 .. |E| - 1`. -/
def selCount (g : Gr ℕ) (s : ℕ → Bool) : ℕ :=
  (List.range g.edges.length).countP s

/-- A valid-cycle basis state: zero net flow at every node, excluding the
empty and the full edge set (as in `test_cycle_mixer`). -/
def validCycle (g : Gr ℕ) (s : ℕ → Bool) : Prop :=
  (∀ v ∈ g.nodes, netFlow g s v = 0) ∧
    0 < selCount g s ∧ selCount g s < g.edges.length

instance validCycleDecidable (g : Gr ℕ) (s : ℕ → Bool) :
    Decidable (validCycle g s) :=
  inferInstanceAs (Decidable ((∀ v ∈ g.nodes, netFlow g s v = 0) ∧
    0 < selCount g s ∧ selCount g s < g.edges.length))

/-- Invariant of the operators flowing through the net-flow pipeline: a
bare identity, or a product of `Z` factors only. -/
def okOp (o : Op ℕ) : Prop :=
  o.isId = true ∨ ∀ pw ∈ o.factors, pw.1 = Pauli.Z

/-- Product of the diagonal `Z` values on a list of wires. -/
def zProd (l : List ℕ) (s : ℕ → Bool) : ℚ :=
  (l.map (fun w => if s w then (-1 : ℚ) else 1)).prod

/-- A complex number with rational real and imaginary parts, enough to
represent matrix entries of Pauli tensor Hamiltonians exactly. -/
structure Cx where
  re : ℚ
  im : ℚ
deriving DecidableEq, Repr

instance : Zero Cx := ⟨⟨0, 0⟩⟩

instance : One Cx := ⟨⟨1, 0⟩⟩

instance : Add Cx := ⟨fun a b => ⟨a.re + b.re, a.im + b.im⟩⟩

instance : Neg Cx := ⟨fun a => ⟨-a.re, -a.im⟩⟩

instance : Mul Cx := ⟨fun a b => ⟨a.re * b.re - a.im * b.im, a.re * b.im + a.im * b.re⟩⟩

instance : AddCommMonoid Cx where
  add_assoc a b c := by
    cases a
    cases b
    cases c
    exact congrArg₂ Cx.mk (add_assoc _ _ _) (add_assoc _ _ _)
  zero_add a := by
    cases a
    exact congrArg₂ Cx.mk (zero_add _) (zero_add _)
  add_zero a := by
    cases a
    exact congrArg₂ Cx.mk (add_zero _) (add_zero _)
  add_comm a b := by
    cases a
    cases b
    exact congrArg₂ Cx.mk (add_comm _ _) (add_comm _ _)
  nsmul := nsmulRec

/-- Rational scalar multiple of a complex entry. -/
def Cx.rsmul (q : ℚ) (z : Cx) : Cx := ⟨q * z.re, q * z.im⟩

/-- Matrix element `⟨t|P|s⟩` of one Pauli factor in the standard basis. -/
def pentry : Pauli → Bool → Bool → Cx
  | .I, t, s => if t = s then 1 else 0
  | .X, t, s => if t = s then 0 else 1
  | .Y, t, s => if t = s then 0 else if s then ⟨0, -1⟩ else ⟨0, 1⟩
  | .Z, t, s => if t = s then (if s then -1 else 1) else 0

/-- Matrix entry `⟨t|O|s⟩` of an operator over the wire universe
`0 .. n - 1` (the test helper `matrix(h, n_wires)`): the factor entries
multiply, and every wire outside the operator contributes a Kronecker
delta. -/
def entryOp (n : ℕ) (o : Op ℕ) (t s : ℕ → Bool) : Cx :=
  if (List.range n).all (fun w => o.wires.contains w || t w == s w) then
    (o.factors.map (fun pw => pentry pw.1 (t pw.2) (s pw.2))).prod
  else 0

/-- Matrix entry `⟨t|H|s⟩` of a Hamiltonian over the wire universe
`0 .. n - 1`. -/
def entryH (n : ℕ) (h : Ham ℕ) (t s : ℕ → Bool) : Cx :=
  (h.map (fun co => Cx.rsmul co.1 (entryOp n co.2 t s))).sum

/-- Integer indicator of a Boolean. -/
def iv (b : Bool) : ℤ :=
  if b then 1 else 0

/-- On the wire universe `0 .. n - 1`, the row state is the column state
with the bits on the three given wires flipped. -/
def flipPat (n we wa wb : ℕ) (t s : ℕ → Bool) : Prop :=
  (∀ w, w < n → w ≠ we → w ≠ wa → w ≠ wb → t w = s w) ∧
    t we = !s we ∧ t wa = !s wa ∧ t wb = !s wb

/-- Value of one four-term cycle-mixer block between a column state and its
three-wire flip, as a function of the column bits on the block's wires: `1`
exactly when the block exchanges the edge with its two-edge alternate path
(edge selected and path unselected, or the reverse), else `0`. -/
def patVal (a b c : Bool) : Cx :=
  if (a ∧ ¬b ∧ ¬c) ∨ (¬a ∧ b ∧ c) then 1 else 0

/-! ## Statement abbreviations for the claims -/

/-- The edge-to-wire and wire-to-edge maps of a graph are exact inverses:
composition is the identity on the graph's edges and on the wire indices
`0 .. |E| - 1`, and indices follow the edge iterator's order. -/
def edgeWireMapsInverse (g : Gr ℕ) : Prop :=
  (∀ e i, (edges_to_wires g).lookup e = some i →
    (wires_to_edges g).lookup i = some e) ∧
  (∀ i e, (wires_to_edges g).lookup i = some e →
    (edges_to_wires g).lookup e = some i) ∧
  (∀ k (hk : k < g.edges.length),
    (edges_to_wires g).lookup (g.edges.get ⟨k, hk⟩) = some k) ∧
  (∀ i, (∃ e, (wires_to_edges g).lookup i = some e) ↔ i < g.edges.length)

/-! ## Basic lemmas about `Cx` -/

theorem Cx.ext2 {a b : Cx} (h1 : a.re = b.re) (h2 : a.im = b.im) : a = b := by
  cases a
  cases b
  cases h1
  cases h2
  rfl

@[simp] theorem Cx.add_re (a b : Cx) : (a + b).re = a.re + b.re := rfl

@[simp] theorem Cx.add_im (a b : Cx) : (a + b).im = a.im + b.im := rfl

@[simp] theorem Cx.mul_re (a b : Cx) : (a * b).re = a.re * b.re - a.im * b.im := rfl

@[simp] theorem Cx.mul_im (a b : Cx) : (a * b).im = a.re * b.im + a.im * b.re := rfl

@[simp] theorem Cx.zero_re : (0 : Cx).re = 0 := rfl

@[simp] theorem Cx.zero_im : (0 : Cx).im = 0 := rfl

@[simp] theorem Cx.one_re : (1 : Cx).re = 1 := rfl

@[simp] theorem Cx.one_im : (1 : Cx).im = 0 := rfl

@[simp] theorem Cx.rsmul_re (q : ℚ) (z : Cx) : (Cx.rsmul q z).re = q * z.re := rfl

@[simp] theorem Cx.rsmul_im (q : ℚ) (z : Cx) : (Cx.rsmul q z).im = q * z.im := rfl

theorem Cx.rsmul_zero (q : ℚ) : Cx.rsmul q 0 = 0 := by
  refine Cx.ext2 ?_ ?_ <;> simp

theorem Cx.mul_zero (a : Cx) : a * 0 = 0 := by
  refine Cx.ext2 ?_ ?_ <;> simp

theorem Cx.zero_mul (a : Cx) : 0 * a = 0 := by
  refine Cx.ext2 ?_ ?_ <;> simp

/-! ## Lemmas about `List.indexOf` under an arbitrary lawful `BEq` -/

theorem indexOf_cons_beq {α : Type} [BEq α] (a b : α) (l : List α) :
    List.indexOf a (b :: l) = bif b == a then 0 else List.indexOf a l + 1 := by
  simp [List.indexOf, List.findIdx_cons]

theorem indexOf_lt_length_beq {α : Type} [BEq α] [LawfulBEq α] {a : α} :
    ∀ {l : List α}, a ∈ l → List.indexOf a l < l.length := by
  intro l
  induction l with
  | nil => intro h; cases h
  | cons x xs ih =>
    intro h
    rw [indexOf_cons_beq]
    by_cases hx : x = a
    · simp [hx]
    · have : (x == a) = false := by simp [hx]
      rw [this]
      have hmem : a ∈ xs := by
        rcases List.mem_cons.1 h with h1 | h1
        · exact absurd h1.symm hx
        · exact h1
      simpa using ih hmem

theorem getElem?_indexOf_beq {α : Type} [BEq α] [LawfulBEq α] {a : α} :
    ∀ {l : List α}, a ∈ l → l[List.indexOf a l]? = some a := by
  intro l
  induction l with
  | nil => intro h; cases h
  | cons x xs ih =>
    intro h
    rw [indexOf_cons_beq]
    by_cases hx : x = a
    · simp [hx]
    · have hb : (x == a) = false := by simp [hx]
      rw [hb]
      have hmem : a ∈ xs := by
        rcases List.mem_cons.1 h with h1 | h1
        · exact absurd h1.symm hx
        · exact h1
      simpa using ih hmem

theorem indexOf_getElem_beq {α : Type} [BEq α] [LawfulBEq α] :
    ∀ {l : List α}, l.Nodup → ∀ (i : ℕ) (hi : i < l.length),
      List.indexOf l[i] l = i := by
  intro l
  induction l with
  | nil => intro _ i hi; cases hi
  | cons x xs ih =>
    intro hnd i hi
    rcases List.nodup_cons.1 hnd with ⟨hx, hnd'⟩
    cases i with
    | zero => simp [indexOf_cons_beq]
    | succ j =>
      have hj : j < xs.length := by simpa using hi
      have hne : (x == xs[j]) = false := by
        by_contra hc
        have hb : (x == xs[j]) = true := by
          cases hxx : (x == xs[j]) with
          | true => rfl
          | false => exact absurd hxx hc
        exact hx ((eq_of_beq hb) ▸ List.getElem_mem hj)
      have : (x :: xs)[j + 1] = xs[j] := by simp
      rw [this, indexOf_cons_beq, hne]
      simp [ih hnd' j hj]

theorem indexOf_inj_beq {α : Type} [BEq α] [LawfulBEq α] {a b : α} {l : List α}
    (ha : a ∈ l) (hb : b ∈ l) (h : List.indexOf a l = List.indexOf b l) :
    a = b := by
  have h1 := getElem?_indexOf_beq ha
  have h2 := getElem?_indexOf_beq hb
  rw [h] at h1
  rw [h1] at h2
  injection h2

/-! ## Lookup lemmas for the edge/wire maps -/

/-- Looking an index up in an enumerated list returns the element there. -/
theorem lookup_enumFrom {α : Type} (l : List α) :
    ∀ (k i : ℕ), (l.enumFrom k).lookup (k + i) = l[i]? := by
  induction l with
  | nil => intro k i; rfl
  | cons x xs ih =>
    intro k i
    cases i with
    | zero => simp [List.enumFrom, List.lookup]
    | succ j =>
      have hne : (k + (j + 1) == k) = false := by
        simp only [beq_eq_false_iff_ne, ne_eq]
        omega
      have := ih (k + 1) j
      simp only [List.enumFrom, List.lookup, hne, List.getElem?_cons_succ]
      rw [show k + (j + 1) = (k + 1) + j by omega]
      exact this

/-- Looking an element up in the reversed enumeration returns its
first-occurrence index, shifted by the enumeration offset. -/
theorem lookup_enumFrom_swap {α : Type} [BEq α] [LawfulBEq α] (l : List α) :
    ∀ (k : ℕ) (e : α), ((l.enumFrom k).map (fun p => (p.2, p.1))).lookup e =
      if e ∈ l then some (k + List.indexOf e l) else none := by
  induction l with
  | nil => intro k e; simp [List.enumFrom]
  | cons x xs ih =>
    intro k e
    by_cases hx : e = x
    · subst hx
      simp [List.enumFrom, List.lookup, indexOf_cons_beq]
    · have hbeq : (e == x) = false := by simp [hx]
      have hbeq2 : (x == e) = false := by simp [Ne.symm hx]
      have hidx : List.indexOf e (x :: xs) = List.indexOf e xs + 1 := by
        rw [indexOf_cons_beq, hbeq2]
        rfl
      simp only [List.enumFrom, List.map, List.lookup, hbeq, List.mem_cons]
      rw [ih (k + 1) e]
      by_cases hmem : e ∈ xs
      · simp [hmem, hx, hidx]
        omega
      · simp [hmem, hx]

/-- Closed form for `wires_to_edges` lookups. -/
theorem wires_to_edges_lookup (g : Gr ℕ) (i : ℕ) :
    (wires_to_edges g).lookup i = g.edges[i]? := by
  have := lookup_enumFrom g.edges 0 i
  simpa [wires_to_edges, List.enum] using this

/-- Closed form for `edges_to_wires` lookups. -/
theorem edges_to_wires_lookup (g : Gr ℕ) (e : ℕ × ℕ) :
    (edges_to_wires g).lookup e =
      if e ∈ g.edges then some (g.edges.indexOf e) else none := by
  have := lookup_enumFrom_swap g.edges 0 e
  simpa [edges_to_wires, List.enum] using this

/-- C3: for every graph whose edge iterator repeats no edge, the maps
returned by `edges_to_wires` and `wires_to_edges` are exact inverses of
each other, the identity holds on the graph's edges and on the wire indices
`0 .. |E| - 1`, and indices are assigned in edge-iterator order. -/
theorem edges_to_wires_wires_to_edges_inverse (g : Gr ℕ)
    (hnd : g.edges.Nodup) : edgeWireMapsInverse g := by
  refine ⟨?_, ?_, ?_, ?_⟩
  · intro e i h
    rw [edges_to_wires_lookup] at h
    by_cases hmem : e ∈ g.edges
    · simp only [hmem, if_pos] at h
      obtain rfl : List.indexOf e g.edges = i := by injection h
      rw [wires_to_edges_lookup]
      exact getElem?_indexOf_beq hmem
    · simp [hmem] at h
  · intro i e h
    rw [wires_to_edges_lookup] at h
    have hi : i < g.edges.length := by
      by_contra hge
      rw [List.getElem?_eq_none (by omega)] at h
      exact Option.noConfusion h
    rw [List.getElem?_eq_getElem hi] at h
    obtain rfl : g.edges[i] = e := by injection h
    rw [edges_to_wires_lookup]
    have hmem : g.edges[i] ∈ g.edges := List.getElem_mem hi
    rw [if_pos hmem, indexOf_getElem_beq hnd i hi]
  · intro k hk
    rw [edges_to_wires_lookup]
    have hget : g.edges.get ⟨k, hk⟩ = g.edges[k] := rfl
    have hmem : g.edges.get ⟨k, hk⟩ ∈ g.edges := by
      rw [hget]
      exact List.getElem_mem hk
    rw [if_pos hmem]
    have : g.edges.get ⟨k, hk⟩ = g.edges[k] := rfl
    rw [this, indexOf_getElem_beq hnd k hk]
  · intro i
    rw [wires_to_edges_lookup]
    constructor
    · rintro ⟨e, he⟩
      by_contra hge
      rw [List.getElem?_eq_none (by omega)] at he
      exact Option.noConfusion he
    · intro hi
      exact ⟨g.edges[i], List.getElem?_eq_getElem hi⟩

/-- Witness for C3: the inverse property holds on the lollipop graph of the
test suite. -/
theorem edges_to_wires_wires_to_edges_inverse_witness :
    ([(0,1),(0,2),(0,3),(1,2),(1,3),(2,3),(3,4)] : List (ℕ × ℕ)).Nodup ∧
      edgeWireMapsInverse ⟨[0,1,2,3,4], [(0,1),(0,2),(0,3),(1,2),(1,3),(2,3),(3,4)]⟩ :=
  ⟨by decide, edges_to_wires_wires_to_edges_inverse
    ⟨[0,1,2,3,4], [(0,1),(0,2),(0,3),(1,2),(1,3),(2,3),(3,4)]⟩ (by decide)⟩

/-- C9: every problem-Hamiltonian builder taking a graph (`maxcut`,
`max_independent_set`, `min_vertex_cover`, `max_clique`, `xy_mixer`,
`bit_flip_mixer`, `edge_driver`) fails with an input-validation error on
every non-graph argument such as a plain edge list; for `edge_driver` the
reward list is validated first, so the failure is always some validation
error and is the graph-type error once the reward list passes. -/
theorem builders_reject_non_graph_input :
    (∀ l : List (ℕ × ℕ), maxcut (.edgeList l) = .error .notAGraph) ∧
    (∀ (l : List (ℕ × ℕ)) (c : Bool),
      max_independent_set (.edgeList l) c = .error .notAGraph) ∧
    (∀ (l : List (ℕ × ℕ)) (c : Bool),
      min_vertex_cover (.edgeList l) c = .error .notAGraph) ∧
    (∀ (l : List (ℕ × ℕ)) (c : Bool),
      max_clique (.edgeList l) c = .error .notAGraph) ∧
    (∀ (α : Type) (l : List (α × α)), xy_mixer (.edgeList l) = .error .notAGraph) ∧
    (∀ (α : Type) (inst : DecidableEq α) (l : List (α × α)) (b : ℕ),
      bit_flip_mixer (.edgeList l) b = .error .notAGraph) ∧
    (∀ (α : Type) (inst : DecidableEq α) (l : List (α × α))
      (reward : List String), ∃ err, edge_driver (.edgeList l) reward = .error err) := by
  refine ⟨fun l => rfl, fun l c => rfl, fun l c => rfl, fun l c => rfl,
    fun α l => rfl, fun α inst l b => rfl, fun α inst l reward => ?_⟩
  unfold edge_driver
  by_cases h1 : ¬ reward.all validRewardEntry
  · exact ⟨.invalidRewardEntry, by rw [if_pos h1]⟩
  · rw [if_neg h1]
    by_cases h2 : ("01" ∈ reward ∧ "10" ∉ reward) ∨ ("10" ∈ reward ∧ "01" ∉ reward)
    · exact ⟨.asymmetricReward, by rw [if_pos h2]⟩
    · exact ⟨.notAGraph, by rw [if_neg h2]⟩

/-- Success case of `edge_driver`, shared helper: valid symmetric reward
lists on a graph build the Hamiltonian. -/
theorem edge_driver_ok_of_valid {α : Type} [DecidableEq α] (g : Gr α)
    (reward : List String) (hok : ∀ s ∈ reward, validRewardEntry s)
    (hsym : "01" ∈ reward ↔ "10" ∈ reward) :
    edge_driver (.graph g) reward = .ok (edgeDriverTerms g reward) := by
  have h1 : ¬ ¬ reward.all validRewardEntry := by
    rw [List.all_eq_true]
    exact not_not_intro hok
  have h2 : ¬ (("01" ∈ reward ∧ "10" ∉ reward) ∨
      ("10" ∈ reward ∧ "01" ∉ reward)) := by
    rintro (⟨ha, hb⟩ | ⟨ha, hb⟩)
    · exact hb (hsym.1 ha)
    · exact hb (hsym.2 ha)
  unfold edge_driver
  rw [if_neg h1, if_neg h2]

/-- C7: `edge_driver` fails with the invalid-entry error when some reward
entry is not a 2-character bitstring over `{0, 1}` (whatever the graph
argument); with all entries valid it fails with the asymmetric-reward error
when exactly one of `"01"` and `"10"` is present; and it succeeds on a graph
when the entries are valid and `"01"`, `"10"` occur together or not at
all. -/
theorem edge_driver_reward_validation {α : Type} [DecidableEq α]
    (g : Gr α) (reward : List String) :
    (¬ (∀ s ∈ reward, validRewardEntry s) →
      ∀ gi : GraphInput α, edge_driver gi reward = .error .invalidRewardEntry) ∧
    ((∀ s ∈ reward, validRewardEntry s) →
      (("01" ∈ reward ∧ "10" ∉ reward) ∨ ("10" ∈ reward ∧ "01" ∉ reward)) →
      ∀ gi : GraphInput α, edge_driver gi reward = .error .asymmetricReward) ∧
    ((∀ s ∈ reward, validRewardEntry s) → ("01" ∈ reward ↔ "10" ∈ reward) →
      edge_driver (.graph g) reward = .ok (edgeDriverTerms g reward)) := by
  refine ⟨?_, ?_, ?_⟩
  · intro hbad gi
    have h1 : ¬ reward.all validRewardEntry := by
      rw [List.all_eq_true]
      exact hbad
    unfold edge_driver
    rw [if_pos h1]
  · intro hok hasym gi
    have h1 : ¬ ¬ reward.all validRewardEntry := by
      rw [List.all_eq_true]
      exact not_not_intro hok
    unfold edge_driver
    rw [if_neg h1, if_pos hasym]
  · intro hok hsym
    exact edge_driver_ok_of_valid g reward hok hsym

/-- Witness for C7 on the test suite's inputs: an invalid entry is
rejected, `["11", "00", "01"]` is rejected as asymmetric, and `["00",
"11"]` succeeds on the path graph. -/
theorem edge_driver_reward_validation_witness :
    (¬ (∀ s ∈ ["10", "11", "2", "g"], validRewardEntry s)) ∧
    ((∀ s ∈ ["11", "00", "01"], validRewardEntry s)) ∧
    (("01" ∈ ["11", "00", "01"] ∧ "10" ∉ ["11", "00", "01"]) ∨
      ("10" ∈ ["11", "00", "01"] ∧ "01" ∉ ["11", "00", "01"])) ∧
    (∀ s ∈ ["00", "11"], validRewardEntry s) ∧ ("01" ∈ ["00", "11"] ↔ "10" ∈ ["00", "11"]) ∧
    edge_driver (.edgeList ([(0, 1), (1, 2)] : List (ℕ × ℕ))) ["10", "11", "2", "g"] =
      .error .invalidRewardEntry ∧
    edge_driver (.graph (⟨[0, 1, 2], [(0, 1), (1, 2)]⟩ : Gr ℕ)) ["11", "00", "01"] =
      .error .asymmetricReward ∧
    edge_driver (.graph (⟨[0, 1, 2], [(0, 1), (1, 2)]⟩ : Gr ℕ)) ["00", "11"] =
      .ok (edgeDriverTerms (⟨[0, 1, 2], [(0, 1), (1, 2)]⟩ : Gr ℕ) ["00", "11"]) :=
  ⟨by decide, by decide, by decide, by decide, by decide,
    (edge_driver_reward_validation (⟨[0, 1, 2], [(0, 1), (1, 2)]⟩ : Gr ℕ)
      ["10", "11", "2", "g"]).1 (by decide) _,
    (edge_driver_reward_validation (⟨[0, 1, 2], [(0, 1), (1, 2)]⟩ : Gr ℕ)
      ["11", "00", "01"]).2.1 (by decide) (by decide) _,
    (edge_driver_reward_validation (⟨[0, 1, 2], [(0, 1), (1, 2)]⟩ : Gr ℕ)
      ["00", "11"]).2.2 (by decide) (by decide)⟩

/-- The Boolean diagonality check agrees with its propositional reading. -/
theorem diagonal_terms_iff {α : Type} (h : Ham α) :
    _diagonal_terms h = true ↔
      ∀ co ∈ h, ∀ pw ∈ co.2.factors, pw.1 = Pauli.Z ∨ pw.1 = Pauli.I := by
  unfold _diagonal_terms
  simp [List.all_eq_true]

/-- C8: `cost_layer` and `mixer_layer` fail with the invalid-type error on a
non-Hamiltonian argument; `cost_layer` additionally fails unless every term
is built solely from `PauliZ` and `Identity` factors; on success each term
of weight `c` on wires `w` is emitted as exactly one multi-qubit Pauli
rotation on `w` with angle `2 * gamma * c` (resp. `2 * alpha * c`) about the
term's Pauli word, in term order. -/
theorem cost_mixer_layer_spec {α : Type} (gamma alpha : ℚ) :
    (∀ raw : List (List ℚ),
      cost_layer (α := α) gamma (.rawLists raw) = .error .notHamiltonian) ∧
    (∀ raw : List (List ℚ),
      mixer_layer (α := α) alpha (.rawLists raw) = .error .notHamiltonian) ∧
    (∀ h : Ham α, (∃ co ∈ h, ∃ pw ∈ co.2.factors, pw.1 ≠ Pauli.Z ∧ pw.1 ≠ Pauli.I) →
      cost_layer gamma (.ham h) = .error .notDiagonal) ∧
    (∀ h : Ham α, (∀ co ∈ h, ∀ pw ∈ co.2.factors, pw.1 = Pauli.Z ∨ pw.1 = Pauli.I) →
      cost_layer gamma (.ham h) = .ok (ApproxTimeEvolution h gamma)) ∧
    (∀ h : Ham α, mixer_layer alpha (.ham h) = .ok (ApproxTimeEvolution h alpha)) ∧
    (∀ (h : Ham α) (t : ℚ), (ApproxTimeEvolution h t).length = h.length ∧
      ∀ (i : ℕ) (c : ℚ) (o : Op α), h[i]? = some (c, o) →
        (ApproxTimeEvolution h t)[i]? =
          some (.pauliRot (2 * t * c) (o.factors.map Prod.fst) o.wires)) := by
  refine ⟨fun raw => rfl, fun raw => rfl, ?_, ?_, fun h => rfl, ?_⟩
  · intro h hbad
    have hfalse : ¬ (_diagonal_terms h = true) := by
      rw [diagonal_terms_iff]
      rintro hall
      obtain ⟨co, hco, pw, hpw, hz, hi⟩ := hbad
      rcases hall co hco pw hpw with h1 | h1
      · exact hz h1
      · exact hi h1
    show (if ¬ _diagonal_terms h = true then (Except.error QErr.notDiagonal)
      else Except.ok (ApproxTimeEvolution h gamma)) = Except.error QErr.notDiagonal
    rw [if_pos hfalse]
  · intro h hgood
    have htrue : _diagonal_terms h = true := (diagonal_terms_iff h).2 hgood
    show (if ¬ _diagonal_terms h = true then (Except.error QErr.notDiagonal)
      else Except.ok (ApproxTimeEvolution h gamma)) = Except.ok (ApproxTimeEvolution h gamma)
    rw [if_neg (not_not_intro htrue)]
  · intro h t
    constructor
    · exact List.length_map h _
    · intro i c o hio
      unfold ApproxTimeEvolution
      rw [List.getElem?_map, hio]
      rfl

/-- Witness for C8 on the test suite's inputs: a `PauliX` term is rejected
by `cost_layer`, a `Z`-only Hamiltonian is accepted, and the emitted gate of
the `x_mixer` on wire 0 is `PauliRot(2, "X", [0])` for `alpha = 1`. -/
theorem cost_mixer_layer_spec_witness :
    (∃ co ∈ ([(1, Op.single .Z 0), (1, Op.single .X 1)] : Ham ℕ),
      ∃ pw ∈ co.2.factors, pw.1 ≠ Pauli.Z ∧ pw.1 ≠ Pauli.I) ∧
    (∀ co ∈ ([(1, Op.single .Z 0), (1, Op.single .Z 1)] : Ham ℕ),
      ∀ pw ∈ co.2.factors, pw.1 = Pauli.Z ∨ pw.1 = Pauli.I) ∧
    cost_layer 1 (.ham ([(1, Op.single .Z 0), (1, Op.single .X 1)] : Ham ℕ)) =
      .error .notDiagonal ∧
    cost_layer 1 (.ham ([(1, Op.single .Z 0), (1, Op.single .Z 1)] : Ham ℕ)) =
      .ok (ApproxTimeEvolution ([(1, Op.single .Z 0), (1, Op.single .Z 1)] : Ham ℕ) 1) ∧
    (ApproxTimeEvolution (x_mixer [(0 : ℕ), 1]) 1)[0]? =
      some (.pauliRot (2 * 1 * 1) [Pauli.X] [0]) :=
  ⟨by decide, by decide,
    (cost_mixer_layer_spec 1 1).2.2.1 _ (by decide),
    (cost_mixer_layer_spec 1 1).2.2.2.1 _ (by decide),
    by
      have := ((cost_mixer_layer_spec (α := ℕ) 1 1).2.2.2.2.2 (x_mixer [0, 1]) 1).2 0 1
        (Op.single .X 0) (by rfl)
      simpa using this⟩

/-- Every member of a `zSubsets` sublist comes from the original list. -/
theorem mem_of_mem_zSubsets {α : Type} :
    ∀ (l : List α) (s : List α), s ∈ zSubsets l → ∀ x ∈ s, x ∈ l := by
  intro l
  induction l with
  | nil =>
    intro s hs x hx
    simp [zSubsets] at hs
    subst hs
    cases hx
  | cons y rest ih =>
    intro s hs x hx
    simp only [zSubsets, List.mem_append, List.mem_map] at hs
    rcases hs with hs | ⟨s', hs', rfl⟩
    · exact List.mem_cons_of_mem y (ih s hs x hx)
    · rcases List.mem_cons.1 hx with rfl | hx'
      · exact List.mem_cons_self x rest
      · exact List.mem_cons_of_mem y (ih s' hs' x hx')

/-- Neighbours are endpoints of edges. -/
theorem mem_neighborsOf {α : Type} [DecidableEq α] {g : Gr α} {v x : α}
    (hx : x ∈ neighborsOf g v) : ∃ e ∈ g.edges, x = e.1 ∨ x = e.2 := by
  unfold neighborsOf at hx
  obtain ⟨e, he, hfe⟩ := List.mem_filterMap.1 hx
  refine ⟨e, he, ?_⟩
  by_cases h1 : e.1 = v
  · rw [if_pos h1] at hfe
    right
    exact (Option.some.injEq _ _ ▸ hfe).symm
  · rw [if_neg h1] at hfe
    by_cases h2 : e.2 = v
    · rw [if_pos h2] at hfe
      left
      exact (Option.some.injEq _ _ ▸ hfe).symm
    · rw [if_neg h2] at hfe
      exact Option.noConfusion hfe

/-- All wires of the `edge_driver` Hamiltonian are node labels. -/
theorem edgeDriverTerms_wires {α : Type} [DecidableEq α] (g : Gr α)
    (reward : List String)
    (hend : ∀ e ∈ g.edges, e.1 ∈ g.nodes ∧ e.2 ∈ g.nodes) :
    ∀ co ∈ edgeDriverTerms g reward, ∀ pw ∈ co.2.factors, pw.2 ∈ g.nodes := by
  intro co hco pw hpw
  simp only [edgeDriverTerms] at hco
  split at hco
  · obtain ⟨v, hv, rfl⟩ := List.mem_map.1 hco
    simp only [Op.factors, List.mem_singleton] at hpw
    subst hpw
    exact hv
  · split at hco
    · cases hco
    · split at hco
      · obtain ⟨e, he, hterm⟩ := List.mem_flatMap.1 hco
        have hends := hend e he
        simp only [List.mem_cons, List.not_mem_nil, or_false] at hterm
        rcases hterm with rfl | rfl | rfl <;>
          simp only [opTensor, Op.factors, List.mem_cons, List.not_mem_nil,
            or_false, List.cons_append, List.nil_append] at hpw
        · rcases hpw with rfl | rfl
          · exact hends.1
          · exact hends.2
        · subst hpw
          exact hends.1
        · subst hpw
          exact hends.2
      · split at hco
        · obtain ⟨e, he, hterm⟩ := List.mem_map.1 hco
          have hends := hend e he
          rw [← hterm] at hpw
          simp only [opTensor, Op.factors, List.mem_cons, List.not_mem_nil,
            or_false, List.cons_append, List.nil_append] at hpw
          rcases hpw with rfl | rfl
          · exact hends.1
          · exact hends.2
        · obtain ⟨e, he, hterm⟩ := List.mem_flatMap.1 hco
          have hends := hend e he
          simp only [List.mem_cons, List.not_mem_nil, or_false] at hterm
          rcases hterm with rfl | rfl | rfl <;>
            simp only [opTensor, Op.factors, List.mem_cons, List.not_mem_nil,
              or_false, List.cons_append, List.nil_append] at hpw
          · rcases hpw with rfl | rfl
            · exact hends.1
            · exact hends.2
          · subst hpw
            exact hends.1
          · subst hpw
            exact hends.2

/-- All wires of the bit-flip mixer Hamiltonian are node labels. -/
theorem bitFlipTerms_wires {α : Type} [DecidableEq α] (g : Gr α) (b : ℕ)
    (hend : ∀ e ∈ g.edges, e.1 ∈ g.nodes ∧ e.2 ∈ g.nodes) :
    ∀ co ∈ g.nodes.flatMap (bitFlipTerms g b), ∀ pw ∈ co.2.factors,
      pw.2 ∈ g.nodes := by
  intro co hco pw hpw
  obtain ⟨v, hv, hterm⟩ := List.mem_flatMap.1 hco
  simp only [bitFlipTerms] at hterm
  obtain ⟨s, hs, rfl⟩ := List.mem_map.1 hterm
  have hnbr : ∀ x ∈ s, x ∈ g.nodes := by
    intro x hx
    have hxn : x ∈ neighborsOf g v := mem_of_mem_zSubsets _ s hs x hx
    obtain ⟨e, he, hor⟩ := mem_neighborsOf hxn
    rcases hor with rfl | rfl
    · exact (hend e he).1
    · exact (hend e he).2
  by_cases hemp : s.isEmpty
  · rw [if_pos hemp] at hpw
    simp only [Op.factors, List.mem_singleton] at hpw
    subst hpw
    exact hv
  · rw [if_neg hemp] at hpw
    simp only [Op.factors, List.mem_cons] at hpw
    rcases hpw with rfl | hpw'
    · exact hv
    · obtain ⟨x, hx, rfl⟩ := List.mem_map.1 hpw'
      exact hnbr x hx

/-- C10: node labels need not be integers: on any graph over any label
type, `bit_flip_mixer` (with a valid bit) and `edge_driver` (with a valid
reward list) succeed and use the node labels verbatim as the wire labels of
every factor of the returned operators. -/
theorem builders_carry_node_labels {α : Type} [DecidableEq α] (g : Gr α)
    (hend : ∀ e ∈ g.edges, e.1 ∈ g.nodes ∧ e.2 ∈ g.nodes)
    (b : ℕ) (hb : b = 0 ∨ b = 1)
    (reward : List String) (hval : ∀ s ∈ reward, validRewardEntry s)
    (hsym : "01" ∈ reward ↔ "10" ∈ reward) :
    (bit_flip_mixer (.graph g) b = .ok (g.nodes.flatMap (bitFlipTerms g b)) ∧
      ∀ co ∈ g.nodes.flatMap (bitFlipTerms g b), ∀ pw ∈ co.2.factors,
        pw.2 ∈ g.nodes) ∧
    (edge_driver (.graph g) reward = .ok (edgeDriverTerms g reward) ∧
      ∀ co ∈ edgeDriverTerms g reward, ∀ pw ∈ co.2.factors, pw.2 ∈ g.nodes) := by
  refine ⟨⟨?_, bitFlipTerms_wires g b hend⟩,
    ⟨edge_driver_ok_of_valid g reward hval hsym,
     edgeDriverTerms_wires g reward hend⟩⟩
  show (if b ≠ 0 ∧ b ≠ 1 then (Except.error QErr.invalidBit)
    else Except.ok (g.nodes.flatMap (bitFlipTerms g b))) = _
  rw [if_neg]
  rcases hb with rfl | rfl
  · simp
  · simp

/-- Witness for C10: the mixed string-labelled triangle used by the test
suite's bit-flip-mixer case. -/
theorem builders_carry_node_labels_witness :
    (∀ e ∈ ([("b", "1"), ("1", "0.3"), ("0.3", "b")] : List (String × String)),
      e.1 ∈ ["b", "1", "0.3"] ∧ e.2 ∈ ["b", "1", "0.3"]) ∧
    ((1 : ℕ) = 0 ∨ (1 : ℕ) = 1) ∧
    (∀ s ∈ ["00"], validRewardEntry s) ∧
    ("01" ∈ ["00"] ↔ "10" ∈ ["00"]) ∧
    (bit_flip_mixer
        (.graph (⟨["b", "1", "0.3"], [("b", "1"), ("1", "0.3"), ("0.3", "b")]⟩ : Gr String)) 1 =
      .ok ((["b", "1", "0.3"] : List String).flatMap
        (bitFlipTerms ⟨["b", "1", "0.3"], [("b", "1"), ("1", "0.3"), ("0.3", "b")]⟩ 1)) ∧
      ∀ co ∈ (["b", "1", "0.3"] : List String).flatMap
        (bitFlipTerms ⟨["b", "1", "0.3"], [("b", "1"), ("1", "0.3"), ("0.3", "b")]⟩ 1),
        ∀ pw ∈ co.2.factors, pw.2 ∈ ["b", "1", "0.3"]) ∧
    (edge_driver
        (.graph (⟨["b", "1", "0.3"], [("b", "1"), ("1", "0.3"), ("0.3", "b")]⟩ : Gr String))
        ["00"] =
      .ok (edgeDriverTerms ⟨["b", "1", "0.3"], [("b", "1"), ("1", "0.3"), ("0.3", "b")]⟩ ["00"]) ∧
      ∀ co ∈ edgeDriverTerms
        (⟨["b", "1", "0.3"], [("b", "1"), ("1", "0.3"), ("0.3", "b")]⟩ : Gr String) ["00"],
        ∀ pw ∈ co.2.factors, pw.2 ∈ ["b", "1", "0.3"]) :=
  ⟨by decide, by decide, by decide, by decide,
    (builders_carry_node_labels
      (⟨["b", "1", "0.3"], [("b", "1"), ("1", "0.3"), ("0.3", "b")]⟩ : Gr String)
      (by decide) 1 (by decide) ["00"] (by decide) (by decide)).1,
    (builders_carry_node_labels
      (⟨["b", "1", "0.3"], [("b", "1"), ("1", "0.3"), ("0.3", "b")]⟩ : Gr String)
      (by decide) 1 (by decide) ["00"] (by decide) (by decide)).2⟩

/-! ## C6: the pairwise-product expansion -/

/-- Indexing into a concatenation of equal-length rows: row-major order. -/
theorem getElem?_flatMap_const_length {α β : Type} (f : α → List β) (n : ℕ)
    (hf : ∀ x, (f x).length = n) :
    ∀ (l : List α) (i j : ℕ), j < n → (hi : i < l.length) →
      (l.flatMap f)[i * n + j]? = (f (l.get ⟨i, hi⟩))[j]? := by
  intro l
  induction l with
  | nil => intro i j hj hi; cases hi
  | cons x xs ih =>
    intro i j hj hi
    cases i with
    | zero =>
      have hjlt : 0 * n + j < (f x).length := by
        rw [hf x]
        omega
      rw [List.flatMap_cons, List.getElem?_append, if_pos hjlt]
      have h0 : 0 * n + j = j := by omega
      rw [h0]
      rfl
    | succ i' =>
      have harith : (i' + 1) * n + j = (f x).length + (i' * n + j) := by
        rw [hf x]
        ring
      have hge : (f x).length ≤ (i' + 1) * n + j := by omega
      rw [List.flatMap_cons, List.getElem?_append_right hge]
      have hsub : (i' + 1) * n + j - (f x).length = i' * n + j := by omega
      rw [hsub]
      exact ih i' j hj (by simpa using hi)

/-- A self-product entry always reduces to an operator made of identity
factors only. -/
theorem squareEntry_self_identity (o : Op ℕ) :
    ∀ pw ∈ (squareEntry o o).factors, pw.1 = Pauli.I := by
  intro pw hpw
  unfold squareEntry at hpw
  by_cases hid : o.isId
  · rw [if_pos hid] at hpw
    cases o with
    | single p w =>
      cases p <;> simp_all [Op.isId, Op.factors]
    | tensor l => simp [Op.isId] at hid
  · rw [if_neg hid, if_neg hid, if_pos ⟨rfl, rfl⟩] at hpw
    simp only [Op.factors, List.mem_singleton] at hpw
    subst hpw
    rfl

/-- C6 counterexample: on the fixed input of
`test_square_hamiltonian_terms`, the cross product of `Identity(0)` (index
0) with `PauliZ(0)` (index 1) — position `0 * 4 + 1` of the row-major
expansion — is the bare `PauliZ(0)`, not the tensor composition
`Identity(0) @ PauliZ(0)` the claim prescribes for every cross product. -/
theorem square_hamiltonian_terms_cross_counterexample :
    ((_square_hamiltonian_terms [1, -1, -1, 1]
        [Op.single .I 0, Op.single .Z 0, Op.single .Z 1, Op.single .Z 3]).2)[0 * 4 + 1]? =
      some (Op.single .Z 0) ∧
    some (Op.single .Z 0) ≠
      some (opTensor (Op.single Pauli.I 0) (Op.single .Z 0)) := by
  constructor
  · rfl
  · decide

/-- C6 (amended): `_square_hamiltonian_terms` returns the full `n * n`
pairwise-product expansion in row-major pair order with coefficients
`c_i * c_j`; each entry is the tensor composition of the two operators
except that identity factors are absorbed, two operators of the same class
on the same wires collapse to the identity, and factors are ordered by
first wire (`squareEntry`); in particular every diagonal self-product
reduces the operator to the identity. -/
theorem square_hamiltonian_terms_amended (coeffs : List ℚ) (ops : List (Op ℕ))
    (hlen : coeffs.length = ops.length) :
    ((_square_hamiltonian_terms coeffs ops).1.length =
      coeffs.length * coeffs.length) ∧
    ((_square_hamiltonian_terms coeffs ops).2.length =
      coeffs.length * coeffs.length) ∧
    (∀ i j (hi : i < coeffs.length) (hj : j < coeffs.length),
      (_square_hamiltonian_terms coeffs ops).1[i * coeffs.length + j]? =
        some (coeffs.get ⟨i, hi⟩ * coeffs.get ⟨j, hj⟩) ∧
      (_square_hamiltonian_terms coeffs ops).2[i * coeffs.length + j]? =
        some (squareEntry (ops.get ⟨i, hlen ▸ hi⟩) (ops.get ⟨j, hlen ▸ hj⟩))) ∧
    (∀ i (hi : i < coeffs.length), ∀ pw ∈
      (squareEntry (ops.get ⟨i, hlen ▸ hi⟩) (ops.get ⟨i, hlen ▸ hi⟩)).factors,
        pw.1 = Pauli.I) := by
  have hpl : (coeffs.zip ops).length = coeffs.length := by
    rw [List.length_zip, hlen, Nat.min_self]
  have hrow : ∀ p : ℚ × Op ℕ,
      ((coeffs.zip ops).map
        (fun p2 => (p.1 * p2.1, squareEntry p.2 p2.2))).length = coeffs.length := by
    intro p
    rw [List.length_map, hpl]
  have hget : ∀ (k : ℕ) (hk : k < coeffs.length),
      (coeffs.zip ops).get ⟨k, by rw [hpl]; exact hk⟩ =
        (coeffs.get ⟨k, hk⟩, ops.get ⟨k, hlen ▸ hk⟩) := by
    intro k hk
    exact List.getElem_zip
  have hflat : ∀ i j (hi : i < coeffs.length) (hj : j < coeffs.length),
      ((coeffs.zip ops).flatMap (fun p1 => (coeffs.zip ops).map
        (fun p2 => (p1.1 * p2.1, squareEntry p1.2 p2.2))))[i * coeffs.length + j]? =
      some (coeffs.get ⟨i, hi⟩ * coeffs.get ⟨j, hj⟩,
        squareEntry (ops.get ⟨i, hlen ▸ hi⟩) (ops.get ⟨j, hlen ▸ hj⟩)) := by
    intro i j hi hj
    rw [getElem?_flatMap_const_length _ coeffs.length hrow (coeffs.zip ops) i j hj
      (by rw [hpl]; exact hi)]
    rw [List.getElem?_map]
    rw [List.getElem?_eq_getElem (by rw [hpl]; exact hj)]
    have h1 := hget i hi
    have h2 := hget j hj
    rw [show ((coeffs.zip ops).get ⟨i, by rw [hpl]; exact hi⟩) =
      (coeffs.get ⟨i, hi⟩, ops.get ⟨i, hlen ▸ hi⟩) from h1]
    rw [show ((coeffs.zip ops)[j] : ℚ × Op ℕ) =
      (coeffs.get ⟨j, hj⟩, ops.get ⟨j, hlen ▸ hj⟩) from h2]
    rfl
  have hlenflat : ((coeffs.zip ops).flatMap (fun p1 => (coeffs.zip ops).map
      (fun p2 => (p1.1 * p2.1, squareEntry p1.2 p2.2)))).length =
      coeffs.length * coeffs.length := by
    rw [List.length_flatMap]
    have hcongr : (coeffs.zip ops).map (List.length ∘ fun p1 => (coeffs.zip ops).map
        (fun p2 => (p1.1 * p2.1, squareEntry p1.2 p2.2))) =
        (coeffs.zip ops).map (fun _ => coeffs.length) :=
      List.map_congr_left (fun p _ => hrow p)
    rw [hcongr, List.map_const', List.sum_replicate, hpl, smul_eq_mul]
  refine ⟨?_, ?_, ?_, ?_⟩
  · show ((_square_hamiltonian_terms coeffs ops).1).length = _
    unfold _square_hamiltonian_terms
    simpa using hlenflat
  · unfold _square_hamiltonian_terms
    simpa using hlenflat
  · intro i j hi hj
    constructor
    · show (((coeffs.zip ops).flatMap _).map Prod.fst)[i * coeffs.length + j]? = _
      rw [List.getElem?_map, hflat i j hi hj]
      rfl
    · show (((coeffs.zip ops).flatMap _).map Prod.snd)[i * coeffs.length + j]? = _
      rw [List.getElem?_map, hflat i j hi hj]
      rfl
  · intro i hi
    exact squareEntry_self_identity _

/-! ## C4 and C5: the loss Hamiltonian -/

/-- On a clean edge list, the per-edge pass returns the raw (weight, wire)
terms. -/
theorem lossTermsAux_ok (g : WGr) :
    ∀ l : List (ℕ × ℕ), (∀ e ∈ l, e.1 ≠ e.2) →
      (∀ e ∈ l, (g.weightOf e).isSome) →
      lossTermsAux g l = .ok (l.map (fun e =>
        ((g.weightOf e).getD 0, Op.single .Z (edgeWire g.toGr e)))) := by
  intro l
  induction l with
  | nil => intro _ _; rfl
  | cons e rest ih =>
    intro hloop hw
    have hne : ¬ e.1 = e.2 := hloop e (List.mem_cons_self e rest)
    have hs : (g.weightOf e).isSome := hw e (List.mem_cons_self e rest)
    obtain ⟨w, hww⟩ := Option.isSome_iff_exists.1 hs
    show (if e.1 = e.2 then (Except.error QErr.selfLoop) else _) = _
    rw [if_neg hne]
    have ihr := ih (fun x hx => hloop x (List.mem_cons_of_mem e hx))
      (fun x hx => hw x (List.mem_cons_of_mem e hx))
    rw [hww]
    show (lossTermsAux g rest).map _ = _
    rw [ihr, List.map_cons]
    simp only [Except.map, hww, Option.getD_some]

/-- C4: on a directed graph with no duplicate edges, no self-loops and a
weight on every edge, `loss_hamiltonian` returns exactly one `PauliZ` term
per edge, on that edge's wire index in edge-iteration order, with the
natural logarithm of the edge's weight as coefficient. -/
theorem loss_hamiltonian_log_weight_per_edge (g : WGr) (hnd : g.edges.Nodup)
    (hloop : ∀ e ∈ g.edges, e.1 ≠ e.2)
    (hw : ∀ e ∈ g.edges, (g.weightOf e).isSome ∧ 0 < (g.weightOf e).getD 0) :
    lossHamOk g := by
  have hterms := lossTermsAux_ok g g.edges hloop (fun e he => (hw e he).1)
  refine ⟨(g.edges.map (fun e =>
    ((g.weightOf e).getD 0, Op.single .Z (edgeWire g.toGr e)))).map
      (fun co => (Real.log (co.1 : ℝ), co.2)), ?_, ?_, ?_⟩
  · show (lossTerms g).map _ = _
    rw [show lossTerms g = lossTermsAux g g.edges from rfl, hterms]
    rfl
  · rw [List.length_map, List.length_map]
  · intro i hi
    rw [List.getElem?_map, List.getElem?_map]
    rw [List.getElem?_eq_getElem hi]
    simp only [Option.map_some']
    have hwire : edgeWire g.toGr g.edges[i] = i := by
      show List.indexOf g.edges[i] g.edges = i
      exact indexOf_getElem_beq hnd i hi
    have hget : g.edges.get ⟨i, hi⟩ = g.edges[i] := rfl
    rw [hget, hwire]

/-- Witness for C4: the weighted 2-cycle digraph. -/
theorem loss_hamiltonian_log_weight_per_edge_witness :
    (([(0, 1), (1, 0)] : List (ℕ × ℕ)).Nodup) ∧
    (∀ e ∈ ([(0, 1), (1, 0)] : List (ℕ × ℕ)), e.1 ≠ e.2) ∧
    (∀ e ∈ ([(0, 1), (1, 0)] : List (ℕ × ℕ)),
      ((⟨⟨[0, 1], [(0, 1), (1, 0)]⟩, [((0, 1), 2), ((1, 0), 3)]⟩ : WGr).weightOf e).isSome ∧
      0 < ((⟨⟨[0, 1], [(0, 1), (1, 0)]⟩, [((0, 1), 2), ((1, 0), 3)]⟩ : WGr).weightOf e).getD 0) ∧
    lossHamOk ⟨⟨[0, 1], [(0, 1), (1, 0)]⟩, [((0, 1), 2), ((1, 0), 3)]⟩ :=
  ⟨by decide, by decide, by decide,
    loss_hamiltonian_log_weight_per_edge
      ⟨⟨[0, 1], [(0, 1), (1, 0)]⟩, [((0, 1), 2), ((1, 0), 3)]⟩
      (by decide) (by decide) (by decide)⟩

/-- C5 counterexample, on the exact fixture of `test_self_loop_raises_error`
(the weighted complete 3-node digraph with an unweighted self-loop added at
node 1): the self-loop edge lacks a weight attribute, yet `loss_hamiltonian`
raises the self-loop error, not the missing-data error the claim requires
whenever some edge lacks a weight attribute. -/
theorem loss_hamiltonian_error_counterexample :
    (⟨⟨[0, 1, 2], [(0, 1), (0, 2), (1, 0), (1, 2), (1, 1), (2, 0), (2, 1)]⟩,
      [((0, 1), 1/2), ((0, 2), 1), ((1, 0), 3/2), ((1, 2), 2), ((2, 0), 5/2),
        ((2, 1), 3)]⟩ : WGr).weightOf (1, 1) = none ∧
    loss_hamiltonian ⟨⟨[0, 1, 2], [(0, 1), (0, 2), (1, 0), (1, 2), (1, 1), (2, 0), (2, 1)]⟩,
      [((0, 1), 1/2), ((0, 2), 1), ((1, 0), 3/2), ((1, 2), 2), ((2, 0), 5/2),
        ((2, 1), 3)]⟩ = .error .selfLoop ∧
    (Except.error QErr.selfLoop : Except QErr (List (ℝ × Op ℕ))) ≠
      .error .missingWeight := by
  refine ⟨rfl, rfl, ?_⟩
  intro h
  exact QErr.noConfusion (Except.error.inj h)

/-- A propagated error of the computable core is an error of
`loss_hamiltonian`. -/
theorem loss_hamiltonian_error_of_lossTerms {g : WGr} {err : QErr}
    (h : lossTerms g = .error err) : loss_hamiltonian g = .error err := by
  show (lossTerms g).map _ = _
  rw [h]
  rfl

/-- C5 (amended): with no self-loop, a missing weight raises the
missing-data error; with all weights present, a self-loop raises the
self-loop error; when both defects occur the error is one of the two
(decided by edge-iteration order, the self-loop check first on each edge);
and the call returns normally exactly when neither defect occurs. -/
theorem loss_hamiltonian_errors_amended (g : WGr) :
    ((∀ e ∈ g.edges, e.1 ≠ e.2) → (∃ e ∈ g.edges, g.weightOf e = none) →
      loss_hamiltonian g = .error .missingWeight) ∧
    ((∀ e ∈ g.edges, (g.weightOf e).isSome) → (∃ e ∈ g.edges, e.1 = e.2) →
      loss_hamiltonian g = .error .selfLoop) ∧
    ((∃ e ∈ g.edges, e.1 = e.2 ∨ g.weightOf e = none) →
      ∃ err, loss_hamiltonian g = .error err ∧
        (err = QErr.selfLoop ∨ err = QErr.missingWeight)) ∧
    ((∀ e ∈ g.edges, e.1 ≠ e.2 ∧ (g.weightOf e).isSome) →
      ∃ l, loss_hamiltonian g = .ok l) := by
  refine ⟨?_, ?_, ?_, ?_⟩
  · intro hloop hmiss
    refine loss_hamiltonian_error_of_lossTerms ?_
    show lossTermsAux g g.edges = _
    have : ∀ l : List (ℕ × ℕ), (∀ e ∈ l, e.1 ≠ e.2) →
        (∃ e ∈ l, g.weightOf e = none) →
        lossTermsAux g l = .error .missingWeight := by
      intro l
      induction l with
      | nil =>
        rintro _ ⟨e, he, _⟩
        cases he
      | cons e rest ih =>
        rintro hl ⟨x, hx, hxnone⟩
        have hne : ¬ e.1 = e.2 := hl e (List.mem_cons_self e rest)
        show (if e.1 = e.2 then (Except.error QErr.selfLoop) else _) = _
        rw [if_neg hne]
        rcases List.mem_cons.1 hx with rfl | hx'
        · simp only [hxnone]
        · cases hwe : g.weightOf e with
          | none => simp only []
          | some w =>
            simp only []
            rw [ih (fun y hy => hl y (List.mem_cons_of_mem e hy)) ⟨x, hx', hxnone⟩]
            rfl
    exact this g.edges hloop hmiss
  · intro hw hloop
    refine loss_hamiltonian_error_of_lossTerms ?_
    show lossTermsAux g g.edges = _
    have : ∀ l : List (ℕ × ℕ), (∀ e ∈ l, (g.weightOf e).isSome) →
        (∃ e ∈ l, e.1 = e.2) → lossTermsAux g l = .error .selfLoop := by
      intro l
      induction l with
      | nil =>
        rintro _ ⟨e, he, _⟩
        cases he
      | cons e rest ih =>
        rintro hl ⟨x, hx, hxloop⟩
        by_cases hee : e.1 = e.2
        · show (if e.1 = e.2 then (Except.error QErr.selfLoop) else _) = _
          rw [if_pos hee]
        · show (if e.1 = e.2 then (Except.error QErr.selfLoop) else _) = _
          rw [if_neg hee]
          rcases List.mem_cons.1 hx with rfl | hx'
          · exact absurd hxloop hee
          · obtain ⟨w, hww⟩ := Option.isSome_iff_exists.1
              (hl e (List.mem_cons_self e rest))
            simp only [hww]
            rw [ih (fun y hy => hl y (List.mem_cons_of_mem e hy)) ⟨x, hx', hxloop⟩]
            rfl
    exact this g.edges hw hloop
  · intro hbad
    have : ∀ l : List (ℕ × ℕ), (∃ e ∈ l, e.1 = e.2 ∨ g.weightOf e = none) →
        ∃ err, lossTermsAux g l = .error err ∧
          (err = QErr.selfLoop ∨ err = QErr.missingWeight) := by
      intro l
      induction l with
      | nil =>
        rintro ⟨e, he, _⟩
        cases he
      | cons e rest ih =>
        rintro ⟨x, hx, hxbad⟩
        by_cases hee : e.1 = e.2
        · refine ⟨.selfLoop, ?_, Or.inl rfl⟩
          show (if e.1 = e.2 then (Except.error QErr.selfLoop) else _) = _
          rw [if_pos hee]
        · cases hwe : g.weightOf e with
          | none =>
            refine ⟨.missingWeight, ?_, Or.inr rfl⟩
            show (if e.1 = e.2 then (Except.error QErr.selfLoop) else _) = _
            rw [if_neg hee]
            simp only [hwe]
          | some w =>
            have hx' : x ∈ rest := by
              rcases List.mem_cons.1 hx with rfl | hx'
              · rcases hxbad with h1 | h1
                · exact absurd h1 hee
                · rw [hwe] at h1
                  exact Option.noConfusion h1
              · exact hx'
            obtain ⟨err, herr, hor⟩ := ih ⟨x, hx', hxbad⟩
            refine ⟨err, ?_, hor⟩
            show (if e.1 = e.2 then (Except.error QErr.selfLoop) else _) = _
            rw [if_neg hee]
            simp only [hwe]
            rw [herr]
            rfl
    obtain ⟨err, herr, hor⟩ := this g.edges hbad
    exact ⟨err, loss_hamiltonian_error_of_lossTerms herr, hor⟩
  · intro hgood
    have := lossTermsAux_ok g g.edges (fun e he => (hgood e he).1)
      (fun e he => (hgood e he).2)
    refine ⟨(g.edges.map (fun e =>
      ((g.weightOf e).getD 0, Op.single .Z (edgeWire g.toGr e)))).map
        (fun co => (Real.log (co.1 : ℝ), co.2)), ?_⟩
    show (lossTerms g).map _ = _
    rw [show lossTerms g = lossTermsAux g g.edges from rfl, this]
    rfl

/-- Witness for C5 (amended) on four small weighted digraphs exercising all
four branches. -/
theorem loss_hamiltonian_errors_amended_witness :
    ((∀ e ∈ ([(0, 1)] : List (ℕ × ℕ)), e.1 ≠ e.2) ∧
      (∃ e ∈ ([(0, 1)] : List (ℕ × ℕ)),
        (⟨⟨[0, 1], [(0, 1)]⟩, []⟩ : WGr).weightOf e = none) ∧
      loss_hamiltonian ⟨⟨[0, 1], [(0, 1)]⟩, []⟩ = .error .missingWeight) ∧
    ((∀ e ∈ ([(1, 1)] : List (ℕ × ℕ)),
        ((⟨⟨[0, 1], [(1, 1)]⟩, [((1, 1), 1)]⟩ : WGr).weightOf e).isSome) ∧
      (∃ e ∈ ([(1, 1)] : List (ℕ × ℕ)), e.1 = e.2) ∧
      loss_hamiltonian ⟨⟨[0, 1], [(1, 1)]⟩, [((1, 1), 1)]⟩ = .error .selfLoop) ∧
    ((∃ e ∈ ([(1, 1), (0, 1)] : List (ℕ × ℕ)), e.1 = e.2 ∨
        (⟨⟨[0, 1], [(1, 1), (0, 1)]⟩, [((1, 1), 1)]⟩ : WGr).weightOf e = none) ∧
      ∃ err, loss_hamiltonian ⟨⟨[0, 1], [(1, 1), (0, 1)]⟩, [((1, 1), 1)]⟩ =
        .error err ∧ (err = QErr.selfLoop ∨ err = QErr.missingWeight)) ∧
    ((∀ e ∈ ([(0, 1)] : List (ℕ × ℕ)), e.1 ≠ e.2 ∧
        ((⟨⟨[0, 1], [(0, 1)]⟩, [((0, 1), 2)]⟩ : WGr).weightOf e).isSome) ∧
      ∃ l, loss_hamiltonian ⟨⟨[0, 1], [(0, 1)]⟩, [((0, 1), 2)]⟩ = .ok l) :=
  ⟨⟨by decide, by decide,
      (loss_hamiltonian_errors_amended ⟨⟨[0, 1], [(0, 1)]⟩, []⟩).1
        (by decide) (by decide)⟩,
   ⟨by decide, by decide,
      (loss_hamiltonian_errors_amended ⟨⟨[0, 1], [(1, 1)]⟩, [((1, 1), 1)]⟩).2.1
        (by decide) (by decide)⟩,
   ⟨by decide,
      (loss_hamiltonian_errors_amended
        ⟨⟨[0, 1], [(1, 1), (0, 1)]⟩, [((1, 1), 1)]⟩).2.2.1 (by decide)⟩,
   ⟨by decide,
      (loss_hamiltonian_errors_amended ⟨⟨[0, 1], [(0, 1)]⟩, [((0, 1), 2)]⟩).2.2.2
        (by decide)⟩⟩

/-- Witness for C6 (amended) on the fixed input of
`test_square_hamiltonian_terms`. -/
theorem square_hamiltonian_terms_amended_witness :
    ([(1 : ℚ), -1, -1, 1].length =
      [Op.single Pauli.I 0, Op.single .Z 0, Op.single .Z 1, Op.single .Z 3].length) ∧
    ((_square_hamiltonian_terms [1, -1, -1, 1]
        [Op.single .I 0, Op.single .Z 0, Op.single .Z 1, Op.single .Z 3]).1.length = 16 ∧
     (_square_hamiltonian_terms [1, -1, -1, 1]
        [Op.single .I 0, Op.single .Z 0, Op.single .Z 1, Op.single .Z 3]).2.length = 16) :=
  ⟨rfl, by
    have h := square_hamiltonian_terms_amended [1, -1, -1, 1]
      [Op.single .I 0, Op.single .Z 0, Op.single .Z 1, Op.single .Z 3] rfl
    exact ⟨h.1, h.2.1⟩⟩

/-! ## C1: the net-flow constraint Hamiltonian -/

theorem evalDiag_single_I (w : ℕ) (s : ℕ → Bool) :
    evalDiag (Op.single .I w) s = 1 := by
  simp [evalDiag, Op.factors, pauliDiag]

theorem evalDiag_single_Z (w : ℕ) (s : ℕ → Bool) :
    evalDiag (Op.single .Z w) s = if s w then -1 else 1 := by
  simp [evalDiag, Op.factors, pauliDiag]

theorem isId_eval {o : Op ℕ} (h : o.isId = true) (s : ℕ → Bool) :
    evalDiag o s = 1 := by
  cases o with
  | single p w => cases p <;> simp_all [Op.isId, evalDiag, Op.factors, pauliDiag]
  | tensor l => simp [Op.isId] at h

theorem allZ_eval {o : Op ℕ} (h : ∀ pw ∈ o.factors, pw.1 = Pauli.Z)
    (s : ℕ → Bool) : evalDiag o s = zProd o.wires s := by
  unfold evalDiag zProd Op.wires
  rw [List.map_map]
  refine congrArg List.prod (List.map_congr_left ?_)
  intro pw hpw
  rw [h pw hpw]
  rfl

theorem zProd_sq (l : List ℕ) (s : ℕ → Bool) : zProd l s * zProd l s = 1 := by
  induction l with
  | nil => simp [zProd]
  | cons w rest ih =>
    unfold zProd at ih ⊢
    rw [List.map_cons, List.prod_cons]
    by_cases hw : s w
    · rw [if_pos hw]
      ring_nf
      ring_nf at ih
      exact ih
    · rw [if_neg hw]
      ring_nf
      ring_nf at ih
      exact ih

theorem okOp_allZ {o : Op ℕ} (hok : okOp o) (hnid : o.isId = false) :
    ∀ pw ∈ o.factors, pw.1 = Pauli.Z := by
  rcases hok with h | h
  · rw [hnid] at h
    exact Bool.noConfusion h
  · exact h

theorem evalDiag_opTensor (o1 o2 : Op ℕ) (s : ℕ → Bool) :
    evalDiag (opTensor o1 o2) s = evalDiag o1 s * evalDiag o2 s := by
  unfold evalDiag opTensor
  rw [show (Op.tensor (o1.factors ++ o2.factors)).factors =
    o1.factors ++ o2.factors from rfl]
  rw [List.map_append, List.prod_append]

/-- Multiplicativity of the pairwise-product entry on the diagonal
semantics for pipeline operators. -/
theorem evalDiag_squareEntry {o1 o2 : Op ℕ} (h1 : okOp o1) (h2 : okOp o2)
    (s : ℕ → Bool) :
    evalDiag (squareEntry o1 o2) s = evalDiag o1 s * evalDiag o2 s := by
  unfold squareEntry
  by_cases hid1 : o1.isId
  · rw [if_pos hid1, isId_eval hid1, one_mul]
  · rw [if_neg hid1]
    by_cases hid2 : o2.isId
    · rw [if_pos hid2, isId_eval hid2, mul_one]
    · rw [if_neg hid2]
      have hz1 := okOp_allZ h1 (Bool.eq_false_iff.2 hid1)
      have hz2 := okOp_allZ h2 (Bool.eq_false_iff.2 hid2)
      by_cases hsame : o1.wires = o2.wires ∧ o1.tag = o2.tag
      · rw [if_pos hsame, allZ_eval hz1, allZ_eval hz2, hsame.1,
          zProd_sq, evalDiag_single_I]
      · rw [if_neg hsame]
        by_cases hlt : o2.wires.headD 0 < o1.wires.headD 0
        · rw [if_pos hlt, evalDiag_opTensor, mul_comm]
        · rw [if_neg hlt, evalDiag_opTensor]

/-- The pipeline invariant is preserved by the pairwise-product entry. -/
theorem okOp_squareEntry {o1 o2 : Op ℕ} (h1 : okOp o1) (h2 : okOp o2) :
    okOp (squareEntry o1 o2) := by
  unfold squareEntry
  by_cases hid1 : o1.isId
  · rw [if_pos hid1]
    exact h2
  · rw [if_neg hid1]
    by_cases hid2 : o2.isId
    · rw [if_pos hid2]
      exact h1
    · rw [if_neg hid2]
      have hz1 := okOp_allZ h1 (Bool.eq_false_iff.2 hid1)
      have hz2 := okOp_allZ h2 (Bool.eq_false_iff.2 hid2)
      have htens : ∀ a b : Op ℕ, (∀ pw ∈ a.factors, pw.1 = Pauli.Z) →
          (∀ pw ∈ b.factors, pw.1 = Pauli.Z) → okOp (opTensor a b) := by
        intro a b ha hb
        right
        intro pw hpw
        rw [show (opTensor a b).factors = a.factors ++ b.factors from rfl] at hpw
        rcases List.mem_append.1 hpw with h | h
        · exact ha pw h
        · exact hb pw h
      by_cases hsame : o1.wires = o2.wires ∧ o1.tag = o2.tag
      · rw [if_pos hsame]
        left
        rfl
      · rw [if_neg hsame]
        by_cases hlt : o2.wires.headD 0 < o1.wires.headD 0
        · rw [if_pos hlt]
          exact htens o2 o1 hz2 hz1
        · rw [if_neg hlt]
          exact htens o1 o2 hz1 hz2

theorem energy_append (l1 l2 : Ham ℕ) (s : ℕ → Bool) :
    energy (l1 ++ l2) s = energy l1 s + energy l2 s := by
  unfold energy
  rw [List.map_append, List.sum_append]

theorem energy_flatMap {α : Type} (l : List α) (f : α → Ham ℕ) (s : ℕ → Bool) :
    energy (l.flatMap f) s = (l.map (fun x => energy (f x) s)).sum := by
  induction l with
  | nil => rfl
  | cons x xs ih =>
    rw [List.flatMap_cons, energy_append, List.map_cons, List.sum_cons, ih]

/-- Energy of one row of the pairwise-product expansion. -/
theorem energy_square_row (pairs : Ham ℕ) (p1 : ℚ × Op ℕ)
    (hok : ∀ p ∈ pairs, okOp p.2) (h1 : okOp p1.2) (s : ℕ → Bool) :
    energy (pairs.map (fun p2 => (p1.1 * p2.1, squareEntry p1.2 p2.2))) s =
      (p1.1 * evalDiag p1.2 s) * energy pairs s := by
  induction pairs with
  | nil => simp [energy]
  | cons q rest ih =>
    have hq : okOp q.2 := hok q (List.mem_cons_self q rest)
    have hrest : ∀ p ∈ rest, okOp p.2 :=
      fun p hp => hok p (List.mem_cons_of_mem q hp)
    rw [List.map_cons]
    show energy ((p1.1 * q.1, squareEntry p1.2 q.2) :: _) s = _
    unfold energy
    rw [List.map_cons, List.sum_cons, List.map_cons, List.sum_cons]
    have ihr := ih hrest
    unfold energy at ihr
    rw [ihr, evalDiag_squareEntry h1 hq]
    ring

/-- The energy of the squared linear form is the square of the energy of
the form. -/
theorem energy_square (pairs : Ham ℕ) (hok : ∀ p ∈ pairs, okOp p.2)
    (s : ℕ → Bool) :
    energy (pairs.flatMap (fun p1 => pairs.map
      (fun p2 => (p1.1 * p2.1, squareEntry p1.2 p2.2)))) s =
      energy pairs s * energy pairs s := by
  rw [energy_flatMap]
  have hrows : pairs.map (fun p1 => energy (pairs.map
      (fun p2 => (p1.1 * p2.1, squareEntry p1.2 p2.2))) s) =
      pairs.map (fun p1 => (p1.1 * evalDiag p1.2 s) * energy pairs s) := by
    refine List.map_congr_left ?_
    intro p1 hp1
    exact energy_square_row pairs p1 hok (hok p1 hp1) s
  rw [hrows, List.sum_map_mul_right]
  rfl

theorem zProd_perm {l1 l2 : List ℕ} (h : l1.Perm l2) (s : ℕ → Bool) :
    zProd l1 s = zProd l2 s :=
  List.Perm.prod_eq (List.Perm.map _ h)

/-- Key-equal pipeline operators have the same diagonal semantics. -/
theorem collectKey_eval {o1 o2 : Op ℕ} (h1 : okOp o1) (h2 : okOp o2)
    (hk : collectKey o1 = collectKey o2) (s : ℕ → Bool) :
    evalDiag o1 s = evalDiag o2 s := by
  have hkeyW : o1.wires.insertionSort (· ≤ ·) = o2.wires.insertionSort (· ≤ ·) := by
    have := congrArg Prod.fst hk
    simpa [collectKey] using this
  have hkeyT : (o1.factors.map (fun pw => pw.1.toNat)).insertionSort (· ≤ ·) =
      (o2.factors.map (fun pw => pw.1.toNat)).insertionSort (· ≤ ·) := by
    have := congrArg Prod.snd hk
    simpa [collectKey] using this
  have hmixed : ∀ a b : Op ℕ, a.isId = true →
      (∀ pw ∈ b.factors, pw.1 = Pauli.Z) →
      (a.factors.map (fun pw => pw.1.toNat)).insertionSort (· ≤ ·) =
        (b.factors.map (fun pw => pw.1.toNat)).insertionSort (· ≤ ·) → False := by
    intro a b hida hzb hkey
    have ha : a.factors.map (fun pw => pw.1.toNat) = [0] := by
      cases a with
      | single p w => cases p <;> simp_all [Op.isId, Op.factors, Pauli.toNat]
      | tensor l => simp [Op.isId] at hida
    have h0 : (0 : ℕ) ∈ (b.factors.map (fun pw => pw.1.toNat)).insertionSort (· ≤ ·) := by
      rw [← hkey, ha]
      simp [List.insertionSort]
    have h0b : (0 : ℕ) ∈ b.factors.map (fun pw => pw.1.toNat) :=
      (List.perm_insertionSort _ _).subset h0
    obtain ⟨pw, hpw, hval⟩ := List.mem_map.1 h0b
    rw [hzb pw hpw] at hval
    exact Nat.noConfusion hval
  rcases h1 with hid1 | hz1
  · rcases h2 with hid2 | hz2
    · rw [isId_eval hid1, isId_eval hid2]
    · exact absurd hkeyT (fun hkey => hmixed o1 o2 hid1 hz2 hkey)
  · rcases h2 with hid2 | hz2
    · exact absurd hkeyT.symm (fun hkey => hmixed o2 o1 hid2 hz1 hkey)
    · rw [allZ_eval hz1, allZ_eval hz2]
      have hperm : o1.wires.Perm o2.wires :=
        ((List.perm_insertionSort _ o1.wires).symm.trans
          (hkeyW ▸ List.perm_insertionSort _ o2.wires))
      exact zProd_perm hperm s

theorem insertTerm_energy (c : ℚ) (o : Op ℕ) (ho : okOp o) (s : ℕ → Bool) :
    ∀ acc : Ham ℕ, (∀ co ∈ acc, okOp co.2) →
      energy (insertTerm acc c o) s = energy acc s + c * evalDiag o s := by
  intro acc
  induction acc with
  | nil =>
    intro _
    simp [insertTerm, energy]
  | cons co rest ih =>
    intro hacc
    have hco : okOp co.2 := hacc co (List.mem_cons_self co rest)
    have hrest : ∀ x ∈ rest, okOp x.2 :=
      fun x hx => hacc x (List.mem_cons_of_mem co hx)
    show energy (if collectKey co.2 = collectKey o then (co.1 + c, co.2) :: rest
      else co :: insertTerm rest c o) s = _
    by_cases hkey : collectKey co.2 = collectKey o
    · rw [if_pos hkey]
      unfold energy
      rw [List.map_cons, List.sum_cons, List.map_cons, List.sum_cons]
      rw [collectKey_eval hco ho hkey]
      ring
    · rw [if_neg hkey]
      unfold energy
      rw [List.map_cons, List.sum_cons, List.map_cons, List.sum_cons]
      have := ih hrest
      unfold energy at this
      rw [this]
      ring

theorem insertTerm_ok (c : ℚ) (o : Op ℕ) (ho : okOp o) :
    ∀ acc : Ham ℕ, (∀ co ∈ acc, okOp co.2) →
      ∀ co ∈ insertTerm acc c o, okOp co.2 := by
  intro acc
  induction acc with
  | nil =>
    intro _ co hco
    simp only [insertTerm, List.mem_singleton] at hco
    subst hco
    exact ho
  | cons x rest ih =>
    intro hacc co hco
    have hx : okOp x.2 := hacc x (List.mem_cons_self x rest)
    have hrest : ∀ y ∈ rest, okOp y.2 :=
      fun y hy => hacc y (List.mem_cons_of_mem x hy)
    rw [show insertTerm (x :: rest) c o =
      (if collectKey x.2 = collectKey o then (x.1 + c, x.2) :: rest
        else x :: insertTerm rest c o) from rfl] at hco
    by_cases hkey : collectKey x.2 = collectKey o
    · rw [if_pos hkey] at hco
      rcases List.mem_cons.1 hco with rfl | hco'
      · exact hx
      · exact hrest co hco'
    · rw [if_neg hkey] at hco
      rcases List.mem_cons.1 hco with rfl | hco'
      · exact hx
      · exact ih hrest co hco'

theorem foldl_insertTerm_energy (s : ℕ → Bool) :
    ∀ (l : Ham ℕ) (acc : Ham ℕ), (∀ co ∈ acc, okOp co.2) →
      (∀ co ∈ l, okOp co.2) →
      energy (l.foldl (fun a co => insertTerm a co.1 co.2) acc) s =
        energy acc s + energy l s := by
  intro l
  induction l with
  | nil =>
    intro acc _ _
    show energy acc s = energy acc s + energy [] s
    simp [energy]
  | cons x rest ih =>
    intro acc hacc hl
    have hx : okOp x.2 := hl x (List.mem_cons_self x rest)
    have hrest : ∀ y ∈ rest, okOp y.2 :=
      fun y hy => hl y (List.mem_cons_of_mem x hy)
    rw [List.foldl_cons]
    rw [ih (insertTerm acc x.1 x.2) (insertTerm_ok x.1 x.2 hx acc hacc) hrest]
    rw [insertTerm_energy x.1 x.2 hx s acc hacc]
    unfold energy
    rw [List.map_cons, List.sum_cons]
    ring

theorem energy_filter_ne_zero (s : ℕ → Bool) :
    ∀ l : Ham ℕ, energy (l.filter (fun co => co.1 ≠ 0)) s = energy l s := by
  intro l
  induction l with
  | nil => rfl
  | cons x rest ih =>
    by_cases hx : x.1 ≠ 0
    · rw [List.filter_cons_of_pos (by simpa using hx)]
      unfold energy
      rw [List.map_cons, List.sum_cons, List.map_cons, List.sum_cons]
      unfold energy at ih
      rw [ih]
    · rw [List.filter_cons_of_neg (by simpa using hx)]
      unfold energy
      rw [List.map_cons, List.sum_cons]
      unfold energy at ih
      rw [ih]
      push_neg at hx
      rw [hx]
      ring

/-- Recombining the parallel lists of a pair-producing function gives the
underlying pair list back. -/
theorem zip_map_fst_snd {A B : Type} (l : List (A × B)) :
    (l.map Prod.fst).zip (l.map Prod.snd) = l := by
  rw [List.zip_map']
  have : l.map (fun a => (a.1, a.2)) = l.map id :=
    List.map_congr_left (fun x _ => rfl)
  rw [this, List.map_id]

/-- `_collect_duplicates` preserves basis-state energies of pipeline
Hamiltonians. -/
theorem energy_collect_duplicates (coeffs : List ℚ) (ops : List (Op ℕ))
    (hok : ∀ co ∈ coeffs.zip ops, okOp co.2) (s : ℕ → Bool) :
    energy ((_collect_duplicates coeffs ops).1.zip
      (_collect_duplicates coeffs ops).2) s = energy (coeffs.zip ops) s := by
  unfold _collect_duplicates
  simp only []
  rw [zip_map_fst_snd]
  rw [energy_filter_ne_zero]
  have := foldl_insertTerm_energy s (coeffs.zip ops) [] (by intro co h; cases h) hok
  rw [this]
  simp [energy]

/-- The zipped linear flow-balance form at a node, written out. -/
theorem inner_lin_eq (g : Gr ℕ) (v : ℕ) :
    (innerCoeffs g v).zip (innerOps g v) =
      ((((outEdges g v).length : ℚ) - ((inEdges g v).length : ℚ)),
        Op.single Pauli.I 0) ::
      ((outEdges g v).map (fun e => ((-1 : ℚ), Op.single .Z (edgeWire g e))) ++
       (inEdges g v).map (fun e => ((1 : ℚ), Op.single .Z (edgeWire g e)))) := by
  unfold innerCoeffs innerOps
  rw [List.zip_cons_cons]
  rw [List.zip_append (by rw [List.length_map, List.length_map])]
  rw [List.zip_map', List.zip_map']

/-- Energy of a row of uniformly weighted `Z` terms. -/
theorem energy_zrow (c : ℚ) (f : (ℕ × ℕ) → ℕ) (s : ℕ → Bool) :
    ∀ l : List (ℕ × ℕ),
      energy (l.map (fun e => (c, Op.single .Z (f e)))) s =
        c * ((l.length : ℚ) - 2 * (l.countP (fun e => s (f e)) : ℚ)) := by
  intro l
  induction l with
  | nil => simp [energy]
  | cons e rest ih =>
    rw [List.map_cons]
    unfold energy
    rw [List.map_cons, List.sum_cons]
    unfold energy at ih
    rw [ih, evalDiag_single_Z, List.countP_cons, List.length_cons]
    by_cases hse : s (f e)
    · rw [if_pos hse]
      have : (rest.countP (fun x => s (f x)) + if s (f e) = true then 1 else 0) =
          rest.countP (fun x => s (f x)) + 1 := by
        rw [if_pos hse]
      rw [this]
      push_cast
      ring
    · rw [if_neg hse]
      have : (rest.countP (fun x => s (f x)) + if s (f e) = true then 1 else 0) =
          rest.countP (fun x => s (f x)) := by
        rw [if_neg hse]
        omega
      rw [this]
      push_cast
      ring

/-- The out-edge selection count, re-expressed over the full edge list. -/
theorem countP_outEdges (g : Gr ℕ) (v : ℕ) (s : ℕ → Bool) :
    (outEdges g v).countP (fun e => s (edgeWire g e)) =
      g.edges.countP (fun e => decide (e.1 = v) && s (edgeWire g e)) := by
  unfold outEdges
  rw [List.countP_filter]
  exact congrArg (fun p => g.edges.countP p)
    (funext (fun e => Bool.and_comm _ _))

/-- The in-edge selection count, re-expressed over the full edge list. -/
theorem countP_inEdges (g : Gr ℕ) (v : ℕ) (s : ℕ → Bool) :
    (inEdges g v).countP (fun e => s (edgeWire g e)) =
      g.edges.countP (fun e => decide (e.2 = v) && s (edgeWire g e)) := by
  unfold inEdges
  rw [List.countP_filter]
  exact congrArg (fun p => g.edges.countP p)
    (funext (fun e => Bool.and_comm _ _))

/-- Energy of the linear flow-balance form: twice the net flow. -/
theorem energy_inner_lin (g : Gr ℕ) (v : ℕ) (s : ℕ → Bool) :
    energy ((innerCoeffs g v).zip (innerOps g v)) s =
      2 * (netFlow g s v : ℚ) := by
  rw [inner_lin_eq]
  unfold energy
  rw [List.map_cons, List.sum_cons, List.map_append, List.sum_append]
  have h1 := energy_zrow (-1) (edgeWire g) s (outEdges g v)
  have h2 := energy_zrow 1 (edgeWire g) s (inEdges g v)
  unfold energy at h1 h2
  rw [h1, h2, evalDiag_single_I, countP_outEdges, countP_inEdges]
  unfold netFlow
  push_cast
  ring

/-- The operators of the linear flow-balance form satisfy the pipeline
invariant. -/
theorem inner_lin_ok (g : Gr ℕ) (v : ℕ) :
    ∀ co ∈ (innerCoeffs g v).zip (innerOps g v), okOp co.2 := by
  intro co hco
  rw [inner_lin_eq] at hco
  rcases List.mem_cons.1 hco with rfl | hco'
  · left
    rfl
  · rcases List.mem_append.1 hco' with h | h
    · obtain ⟨e, he, rfl⟩ := List.mem_map.1 h
      right
      intro pw hpw
      simp only [Op.factors, List.mem_singleton] at hpw
      subst hpw
      rfl
    · obtain ⟨e, he, rfl⟩ := List.mem_map.1 h
      right
      intro pw hpw
      simp only [Op.factors, List.mem_singleton] at hpw
      subst hpw
      rfl

/-- Per-node energy of the net-flow penalty: the square of twice the net
flow. -/
theorem energy_inner_hamiltonian (g : Gr ℕ) (v : ℕ) (s : ℕ → Bool) :
    energy (_inner_net_flow_constraint_hamiltonian g v) s =
      (2 * (netFlow g s v : ℚ)) * (2 * (netFlow g s v : ℚ)) := by
  unfold _inner_net_flow_constraint_hamiltonian
  simp only []
  set lin := (innerCoeffs g v).zip (innerOps g v) with hlin
  have hsq : (_square_hamiltonian_terms (innerCoeffs g v) (innerOps g v)).1.zip
      (_square_hamiltonian_terms (innerCoeffs g v) (innerOps g v)).2 =
      lin.flatMap (fun p1 => lin.map
        (fun p2 => (p1.1 * p2.1, squareEntry p1.2 p2.2))) := by
    unfold _square_hamiltonian_terms
    simp only []
    rw [zip_map_fst_snd]
  have hoklin := inner_lin_ok g v
  have hoksq : ∀ co ∈ (_square_hamiltonian_terms (innerCoeffs g v)
      (innerOps g v)).1.zip (_square_hamiltonian_terms (innerCoeffs g v)
      (innerOps g v)).2, okOp co.2 := by
    rw [hsq]
    intro co hco
    obtain ⟨p1, hp1, hrow⟩ := List.mem_flatMap.1 hco
    obtain ⟨p2, hp2, hco2⟩ := List.mem_map.1 hrow
    rw [← hco2]
    exact okOp_squareEntry (hoklin p1 hp1) (hoklin p2 hp2)
  rw [energy_collect_duplicates _ _ hoksq s, hsq,
    energy_square lin hoklin s, energy_inner_lin]

/-- Nonnegative list sums vanish exactly when all summands do. -/
theorem sum_eq_zero_iff_of_nonneg :
    ∀ l : List ℚ, (∀ x ∈ l, 0 ≤ x) → (l.sum = 0 ↔ ∀ x ∈ l, x = 0) := by
  intro l
  induction l with
  | nil => intro _; simp
  | cons x rest ih =>
    intro hpos
    have hx : 0 ≤ x := hpos x (List.mem_cons_self x rest)
    have hrest : ∀ y ∈ rest, 0 ≤ y :=
      fun y hy => hpos y (List.mem_cons_of_mem x hy)
    have hsum : 0 ≤ rest.sum := List.sum_nonneg hrest
    rw [List.sum_cons]
    constructor
    · intro h0
      have hx0 : x = 0 := by linarith
      have hr0 : rest.sum = 0 := by linarith
      intro y hy
      rcases List.mem_cons.1 hy with rfl | hy'
      · exact hx0
      · exact ((ih hrest).1 hr0) y hy'
    · intro hall
      have hx0 : x = 0 := hall x (List.mem_cons_self x rest)
      have hr0 : rest.sum = 0 :=
        (ih hrest).2 (fun y hy => hall y (List.mem_cons_of_mem x hy))
      rw [hx0, hr0, add_zero]

/-- C1: for every directed graph, `net_flow_constraint` succeeds and the
basis states minimizing its Hamiltonian's energy are exactly those whose
selected edges have zero net flow (outgoing minus incoming selected-edge
count) at every node — such states exist (the empty selection) and attain
energy 0, while every other basis state scores strictly higher; for an
undirected graph, `net_flow_constraint` fails. -/
theorem net_flow_constraint_ground_states :
    (∀ (g : Gr ℕ) (s : ℕ → Bool),
      net_flow_constraint (NxInput.directed g) = .ok (netFlowHam g) ∧
      0 ≤ energy (netFlowHam g) s ∧
      (energy (netFlowHam g) s = 0 ↔ ∀ v ∈ g.nodes, netFlow g s v = 0) ∧
      ((∃ v ∈ g.nodes, netFlow g s v ≠ 0) → 0 < energy (netFlowHam g) s) ∧
      energy (netFlowHam g) (fun _ => false) = 0) ∧
    (∀ u : Gr ℕ, net_flow_constraint (NxInput.undirected u) = .error .notDirected) := by
  have hen : ∀ (g : Gr ℕ) (s : ℕ → Bool), energy (netFlowHam g) s =
      (g.nodes.map (fun v =>
        (2 * (netFlow g s v : ℚ)) * (2 * (netFlow g s v : ℚ)))).sum := by
    intro g s
    unfold netFlowHam
    rw [energy_flatMap]
    exact congrArg List.sum (List.map_congr_left
      (fun v _ => energy_inner_hamiltonian g v s))
  have hnn : ∀ (g : Gr ℕ) (s : ℕ → Bool) (v : ℕ),
      (0 : ℚ) ≤ (2 * (netFlow g s v : ℚ)) * (2 * (netFlow g s v : ℚ)) :=
    fun g s v => mul_self_nonneg _
  constructor
  · intro g s
    refine ⟨rfl, ?_, ?_, ?_, ?_⟩
    · rw [hen]
      refine List.sum_nonneg ?_
      intro x hx
      obtain ⟨v, _, rfl⟩ := List.mem_map.1 hx
      exact hnn g s v
    · rw [hen]
      rw [sum_eq_zero_iff_of_nonneg _ (by
        intro x hx
        obtain ⟨v, _, rfl⟩ := List.mem_map.1 hx
        exact hnn g s v)]
      constructor
      · intro hall v hv
        have := hall _ (List.mem_map.2 ⟨v, hv, rfl⟩)
        have h2 : (2 * (netFlow g s v : ℚ)) = 0 := by
          exact mul_self_eq_zero.1 this
        have : (netFlow g s v : ℚ) = 0 := by linarith
        exact_mod_cast this
      · intro hflows x hx
        obtain ⟨v, hv, rfl⟩ := List.mem_map.1 hx
        rw [hflows v hv]
        ring
    · intro ⟨v, hv, hnf⟩
      have hne : energy (netFlowHam g) s ≠ 0 := by
        rw [hen]
        intro h0
        rw [sum_eq_zero_iff_of_nonneg _ (by
          intro x hx
          obtain ⟨w, _, rfl⟩ := List.mem_map.1 hx
          exact hnn g s w)] at h0
        have := h0 _ (List.mem_map.2 ⟨v, hv, rfl⟩)
        have h2 : (2 * (netFlow g s v : ℚ)) = 0 := mul_self_eq_zero.1 this
        have h3 : (netFlow g s v : ℚ) = 0 := by linarith
        exact hnf (by exact_mod_cast h3)
      have hge : 0 ≤ energy (netFlowHam g) s := by
        rw [hen]
        refine List.sum_nonneg ?_
        intro x hx
        obtain ⟨w, _, rfl⟩ := List.mem_map.1 hx
        exact hnn g s w
      exact lt_of_le_of_ne hge (Ne.symm hne)
    · rw [hen]
      have : ∀ v ∈ g.nodes, (2 * (netFlow g (fun _ => false) v : ℚ)) *
          (2 * (netFlow g (fun _ => false) v : ℚ)) = 0 := by
        intro v _
        have : netFlow g (fun _ => false) v = 0 := by
          unfold netFlow
          have hz : ∀ p : (ℕ × ℕ) → Bool, g.edges.countP
              (fun e => p e && false) = 0 := by
            intro p
            rw [List.countP_eq_zero]
            intro e _
            simp
          rw [hz (fun e => decide (e.1 = v)), hz (fun e => decide (e.2 = v))]
          simp
        rw [this]
        ring
      rw [List.map_congr_left this]
      simp
  · intro u
    rfl

/-! ## C2: the cycle mixer never mixes valid and invalid cycle states -/

theorem entryH_nil (n : ℕ) (t s : ℕ → Bool) : entryH n [] t s = 0 := rfl

theorem entryH_append (n : ℕ) (l1 l2 : Ham ℕ) (t s : ℕ → Bool) :
    entryH n (l1 ++ l2) t s = entryH n l1 t s + entryH n l2 t s := by
  unfold entryH
  rw [List.map_append, List.sum_append]

theorem entryH_flatMap {α : Type} (n : ℕ) (l : List α) (f : α → Ham ℕ)
    (t s : ℕ → Bool) :
    entryH n (l.flatMap f) t s = (l.map (fun x => entryH n (f x) t s)).sum := by
  induction l with
  | nil => rfl
  | cons x xs ih =>
    rw [List.flatMap_cons, entryH_append, List.map_cons, List.sum_cons, ih]

theorem wires_tensor3 (p1 p2 p3 : Pauli) (we wa wb : ℕ) :
    (Op.tensor [(p1, we), (p2, wa), (p3, wb)] : Op ℕ).wires = [we, wa, wb] := rfl

/-- The off-wire agreement check of a three-wire operator holds when the
two states agree away from the three wires. -/
theorem tensor3_check (n we wa wb : ℕ) (p1 p2 p3 : Pauli) (t s : ℕ → Bool)
    (hoff : ∀ w, w < n → w ≠ we → w ≠ wa → w ≠ wb → t w = s w) :
    ((List.range n).all (fun w =>
      (Op.tensor [(p1, we), (p2, wa), (p3, wb)] : Op ℕ).wires.contains w ||
        t w == s w)) = true := by
  rw [List.all_eq_true]
  intro w hw
  have hwn : w < n := List.mem_range.1 hw
  rw [wires_tensor3]
  by_cases h1 : w = we
  · subst h1
    simp
  · by_cases h2 : w = wa
    · subst h2
      simp
    · by_cases h3 : w = wb
      · subst h3
        simp
      · have := hoff w hwn h1 h2 h3
        simp [this, h1, h2, h3]

theorem entryOp_tensor3_of_check (n we wa wb : ℕ) (p1 p2 p3 : Pauli)
    (t s : ℕ → Bool)
    (hall : ((List.range n).all (fun w =>
      (Op.tensor [(p1, we), (p2, wa), (p3, wb)] : Op ℕ).wires.contains w ||
        t w == s w)) = true) :
    entryOp n (Op.tensor [(p1, we), (p2, wa), (p3, wb)]) t s =
      pentry p1 (t we) (s we) *
        (pentry p2 (t wa) (s wa) * (pentry p3 (t wb) (s wb) * 1)) := by
  unfold entryOp
  rw [if_pos hall]
  rfl

/-- A three-wire operator has zero matrix entry between states disagreeing
on some wire outside it. -/
theorem entryOp_tensor3_zero_off (n we wa wb : ℕ) (p1 p2 p3 : Pauli)
    (t s : ℕ → Bool) (w : ℕ) (hwn : w < n) (h1 : w ≠ we) (h2 : w ≠ wa)
    (h3 : w ≠ wb) (hne : t w ≠ s w) :
    entryOp n (Op.tensor [(p1, we), (p2, wa), (p3, wb)]) t s = 0 := by
  unfold entryOp
  rw [if_neg]
  intro hch
  rw [List.all_eq_true] at hch
  have := hch w (List.mem_range.2 hwn)
  rw [wires_tensor3] at this
  have hdisj : w ∈ [we, wa, wb] ∨ t w = s w := by
    simpa using this
  rcases hdisj with hcon | hbeq
  · simp [h1, h2, h3] at hcon
  · exact hne hbeq

theorem pentry_X_same (b : Bool) : pentry .X b b = 0 := by
  simp [pentry]

theorem pentry_Y_same (b : Bool) : pentry .Y b b = 0 := by
  simp [pentry]

theorem cx_mul_first_zero (a b : Cx) : (0 : Cx) * (a * (b * 1)) = 0 := by
  refine Cx.ext2 ?_ ?_ <;> simp

theorem cx_mul_second_zero (a b : Cx) : a * ((0 : Cx) * (b * 1)) = 0 := by
  refine Cx.ext2 ?_ ?_ <;> simp

theorem cx_mul_third_zero (a b : Cx) : a * (b * ((0 : Cx) * 1)) = 0 := by
  refine Cx.ext2 ?_ ?_ <;> simp

/-- Each cycle-mixer block term is built from off-diagonal factors only, so
its matrix entry vanishes unless the row state flips the column state on
all three wires and agrees elsewhere. -/
theorem entryOp_blockterm_zero (n we wa wb : ℕ) (p1 p2 p3 : Pauli)
    (hx1 : p1 = .X ∨ p1 = .Y) (hx2 : p2 = .X ∨ p2 = .Y)
    (hx3 : p3 = .X ∨ p3 = .Y) (t s : ℕ → Bool)
    (hnot : ¬ flipPat n we wa wb t s) :
    entryOp n (Op.tensor [(p1, we), (p2, wa), (p3, wb)]) t s = 0 := by
  by_cases hoff : ∀ w, w < n → w ≠ we → w ≠ wa → w ≠ wb → t w = s w
  · have hsome : t we = s we ∨ t wa = s wa ∨ t wb = s wb := by
      by_contra hcon
      push_neg at hcon
      refine hnot ⟨hoff, ?_, ?_, ?_⟩
      · cases hswe : s we <;> cases htwe : t we <;> simp_all
      · cases hswa : s wa <;> cases htwa : t wa <;> simp_all
      · cases hswb : s wb <;> cases htwb : t wb <;> simp_all
    rw [entryOp_tensor3_of_check n we wa wb p1 p2 p3 t s
      (tensor3_check n we wa wb p1 p2 p3 t s hoff)]
    rcases hsome with hsame | hsame | hsame
    · rw [hsame]
      rcases hx1 with rfl | rfl
      · rw [pentry_X_same]
        exact cx_mul_first_zero _ _
      · rw [pentry_Y_same]
        exact cx_mul_first_zero _ _
    · rw [hsame]
      rcases hx2 with rfl | rfl
      · rw [pentry_X_same]
        exact cx_mul_second_zero _ _
      · rw [pentry_Y_same]
        exact cx_mul_second_zero _ _
    · rw [hsame]
      rcases hx3 with rfl | rfl
      · rw [pentry_X_same]
        exact cx_mul_third_zero _ _
      · rw [pentry_Y_same]
        exact cx_mul_third_zero _ _
  · push_neg at hoff
    obtain ⟨w, hwn, h1, h2, h3, hne⟩ := hoff
    exact entryOp_tensor3_zero_off n we wa wb p1 p2 p3 t s w hwn h1 h2 h3 hne

/-- Entry of one four-term block at the three-wire flip of the column
state: the exchange indicator `patVal`. -/
theorem entryH_blockTerms_flip (n we wa wb : ℕ) (t s : ℕ → Bool)
    (hflip : flipPat n we wa wb t s) :
    entryH n (blockTerms we wa wb) t s = patVal (s we) (s wa) (s wb) := by
  obtain ⟨hoff, h1, h2, h3⟩ := hflip
  have hentry : ∀ p1 p2 p3 : Pauli,
      entryOp n (Op.tensor [(p1, we), (p2, wa), (p3, wb)]) t s =
        pentry p1 (t we) (s we) *
          (pentry p2 (t wa) (s wa) * (pentry p3 (t wb) (s wb) * 1)) :=
    fun p1 p2 p3 => entryOp_tensor3_of_check n we wa wb p1 p2 p3 t s
      (tensor3_check n we wa wb p1 p2 p3 t s hoff)
  show Cx.rsmul (1/4) (entryOp n (Op.tensor [(.X, we), (.X, wa), (.X, wb)]) t s) +
      (Cx.rsmul (1/4) (entryOp n (Op.tensor [(.Y, we), (.Y, wa), (.X, wb)]) t s) +
      (Cx.rsmul (1/4) (entryOp n (Op.tensor [(.Y, we), (.X, wa), (.Y, wb)]) t s) +
      (Cx.rsmul (-(1/4)) (entryOp n (Op.tensor [(.X, we), (.Y, wa), (.Y, wb)]) t s) +
        0))) = patVal (s we) (s wa) (s wb)
  rw [hentry, hentry, hentry, hentry, h1, h2, h3]
  cases s we <;> cases s wa <;> cases s wb <;>
    refine Cx.ext2 ?_ ?_ <;>
    simp [pentry, patVal] <;> norm_num

/-- Counting under a predicate that differs from another only at three
pairwise distinct elements of a duplicate-free list. -/
theorem countP_flip_three (q r : (ℕ × ℕ) → Bool) (x y z : ℕ × ℕ)
    (hxy : x ≠ y) (hxz : x ≠ z) (hyz : y ≠ z) :
    ∀ l : List (ℕ × ℕ), l.Nodup →
      (∀ w ∈ l, w ≠ x → w ≠ y → w ≠ z → q w = r w) →
      (l.countP q : ℤ) = l.countP r +
        (if x ∈ l then iv (q x) - iv (r x) else 0) +
        (if y ∈ l then iv (q y) - iv (r y) else 0) +
        (if z ∈ l then iv (q z) - iv (r z) else 0) := by
  intro l
  induction l with
  | nil =>
    intro _ _
    simp
  | cons w rest ih =>
    intro hnd hagree
    rcases List.nodup_cons.1 hnd with ⟨hwrest, hndrest⟩
    have ihr := ih hndrest
      (fun u hu u1 u2 u3 => hagree u (List.mem_cons_of_mem w hu) u1 u2 u3)
    rw [List.countP_cons, List.countP_cons]
    push_cast
    have hivq : (if q w = true then (1 : ℤ) else 0) = iv (q w) := rfl
    have hivr : (if r w = true then (1 : ℤ) else 0) = iv (r w) := rfl
    rw [hivq, hivr]
    by_cases hwx : w = x
    · subst hwx
      have hxm : w ∈ w :: rest := List.mem_cons_self w rest
      have hym : (y ∈ w :: rest) ↔ (y ∈ rest) := by
        simp [List.mem_cons, Ne.symm hxy]
      have hzm : (z ∈ w :: rest) ↔ (z ∈ rest) := by
        simp [List.mem_cons, Ne.symm hxz]
      rw [if_pos hxm, if_congr hym rfl rfl, if_congr hzm rfl rfl]
      rw [if_neg hwrest] at ihr
      rw [ihr]
      ring
    · by_cases hwy : w = y
      · subst hwy
        have hym : w ∈ w :: rest := List.mem_cons_self w rest
        have hxm : (x ∈ w :: rest) ↔ (x ∈ rest) := by
          simp [List.mem_cons, hxy]
        have hzm : (z ∈ w :: rest) ↔ (z ∈ rest) := by
          simp [List.mem_cons, Ne.symm hyz]
        rw [if_pos hym, if_congr hxm rfl rfl, if_congr hzm rfl rfl]
        rw [if_neg hwrest] at ihr
        rw [ihr]
        ring
      · by_cases hwz : w = z
        · subst hwz
          have hzm : w ∈ w :: rest := List.mem_cons_self w rest
          have hxm : (x ∈ w :: rest) ↔ (x ∈ rest) := by
            simp [List.mem_cons, hxz]
          have hym : (y ∈ w :: rest) ↔ (y ∈ rest) := by
            simp [List.mem_cons, hyz]
          rw [if_pos hzm, if_congr hxm rfl rfl, if_congr hym rfl rfl]
          rw [if_neg hwrest] at ihr
          rw [ihr]
          ring
        · have hqr : q w = r w :=
            hagree w (List.mem_cons_self w rest) hwx hwy hwz
          have hxw : x ≠ w := fun h => hwx h.symm
          have hyw : y ≠ w := fun h => hwy h.symm
          have hzw : z ≠ w := fun h => hwz h.symm
          have hxm : (x ∈ w :: rest) ↔ (x ∈ rest) := by
            simp [List.mem_cons, hxw]
          have hym : (y ∈ w :: rest) ↔ (y ∈ rest) := by
            simp [List.mem_cons, hyw]
          have hzm : (z ∈ w :: rest) ↔ (z ∈ rest) := by
            simp [List.mem_cons, hzw]
          rw [if_congr hxm rfl rfl, if_congr hym rfl rfl, if_congr hzm rfl rfl]
          rw [ihr, hqr]
          ring

/-- Exchanging one edge for its two-edge alternate path preserves the net
flow at every node. -/
theorem netFlow_flip (g : Gr ℕ) (hnd : g.edges.Nodup) (i j k : ℕ)
    (he : (i, j) ∈ g.edges) (ha : (i, k) ∈ g.edges) (hb : (k, j) ∈ g.edges)
    (hki : k ≠ i) (hkj : k ≠ j) (t s : ℕ → Bool)
    (hoff : ∀ w, w < g.edges.length → w ≠ edgeWire g (i, j) →
      w ≠ edgeWire g (i, k) → w ≠ edgeWire g (k, j) → t w = s w)
    (h1 : t (edgeWire g (i, j)) = !s (edgeWire g (i, j)))
    (h2 : t (edgeWire g (i, k)) = !s (edgeWire g (i, k)))
    (h3 : t (edgeWire g (k, j)) = !s (edgeWire g (k, j)))
    (hpat : (s (edgeWire g (i, j)) = true ∧ s (edgeWire g (i, k)) = false ∧
        s (edgeWire g (k, j)) = false) ∨
      (s (edgeWire g (i, j)) = false ∧ s (edgeWire g (i, k)) = true ∧
        s (edgeWire g (k, j)) = true))
    (v : ℕ) : netFlow g t v = netFlow g s v := by
  have hea : (i, j) ≠ (i, k) := fun h => hkj (congrArg Prod.snd h).symm
  have heb : (i, j) ≠ (k, j) := fun h => hki (congrArg Prod.fst h).symm
  have hab : (i, k) ≠ (k, j) := fun h => hki (congrArg Prod.fst h).symm
  have hagree : ∀ (f : (ℕ × ℕ) → Bool) (w : ℕ × ℕ), w ∈ g.edges →
      w ≠ (i, j) → w ≠ (i, k) → w ≠ (k, j) →
      (f w && t (edgeWire g w)) = (f w && s (edgeWire g w)) := by
    intro f w hw w1 w2 w3
    have hww : edgeWire g w < g.edges.length := indexOf_lt_length_beq hw
    have d1 : edgeWire g w ≠ edgeWire g (i, j) :=
      fun hh => w1 (indexOf_inj_beq hw he hh)
    have d2 : edgeWire g w ≠ edgeWire g (i, k) :=
      fun hh => w2 (indexOf_inj_beq hw ha hh)
    have d3 : edgeWire g w ≠ edgeWire g (k, j) :=
      fun hh => w3 (indexOf_inj_beq hw hb hh)
    rw [hoff _ hww d1 d2 d3]
  have hout := countP_flip_three
    (fun e => decide (e.1 = v) && t (edgeWire g e))
    (fun e => decide (e.1 = v) && s (edgeWire g e))
    (i, j) (i, k) (k, j) hea heb hab g.edges hnd
    (fun w hw w1 w2 w3 => hagree (fun e => decide (e.1 = v)) w hw w1 w2 w3)
  have hin := countP_flip_three
    (fun e => decide (e.2 = v) && t (edgeWire g e))
    (fun e => decide (e.2 = v) && s (edgeWire g e))
    (i, j) (i, k) (k, j) hea heb hab g.edges hnd
    (fun w hw w1 w2 w3 => hagree (fun e => decide (e.2 = v)) w hw w1 w2 w3)
  rw [if_pos he, if_pos ha, if_pos hb] at hout hin
  unfold netFlow
  rw [hout, hin]
  simp only [h1, h2, h3] at *
  rcases hpat with ⟨p1, p2, p3⟩ | ⟨p1, p2, p3⟩ <;>
    simp only [p1, p2, p3, Bool.not_true, Bool.not_false, Bool.and_true,
      Bool.and_false, iv] <;>
    ring_nf

/-- A set bit below the wire count keeps the selection nonempty. -/
theorem selCount_pos (g : Gr ℕ) (s : ℕ → Bool) (w : ℕ)
    (hw : w < g.edges.length) (hsw : s w = true) : 0 < selCount g s := by
  unfold selCount
  exact List.countP_pos.2 ⟨w, List.mem_range.2 hw, hsw⟩

/-- A cleared bit below the wire count keeps the selection proper. -/
theorem selCount_lt (g : Gr ℕ) (s : ℕ → Bool) (w : ℕ)
    (hw : w < g.edges.length) (hsw : s w = false) :
    selCount g s < g.edges.length := by
  unfold selCount
  have hle : (List.range g.edges.length).countP s ≤ g.edges.length := by
    have := List.countP_le_length (p := s) (l := List.range g.edges.length)
    simpa using this
  rcases lt_or_eq_of_le hle with hlt | heq
  · exact hlt
  · exfalso
    have hall : ∀ a ∈ List.range g.edges.length, s a = true := by
      refine List.countP_eq_length.1 ?_
      rw [heq, List.length_range]
    have := hall w (List.mem_range.2 hw)
    rw [hsw] at this
    exact Bool.noConfusion this

/-- The edge/alternate-path exchange carries valid cycle states to valid
cycle states and invalid ones to invalid ones. -/
theorem validCycle_flip_iff (g : Gr ℕ) (hnd : g.edges.Nodup) (i j k : ℕ)
    (he : (i, j) ∈ g.edges) (ha : (i, k) ∈ g.edges) (hb : (k, j) ∈ g.edges)
    (hki : k ≠ i) (hkj : k ≠ j) (t s : ℕ → Bool)
    (hoff : ∀ w, w < g.edges.length → w ≠ edgeWire g (i, j) →
      w ≠ edgeWire g (i, k) → w ≠ edgeWire g (k, j) → t w = s w)
    (h1 : t (edgeWire g (i, j)) = !s (edgeWire g (i, j)))
    (h2 : t (edgeWire g (i, k)) = !s (edgeWire g (i, k)))
    (h3 : t (edgeWire g (k, j)) = !s (edgeWire g (k, j)))
    (hpat : (s (edgeWire g (i, j)) = true ∧ s (edgeWire g (i, k)) = false ∧
        s (edgeWire g (k, j)) = false) ∨
      (s (edgeWire g (i, j)) = false ∧ s (edgeWire g (i, k)) = true ∧
        s (edgeWire g (k, j)) = true)) :
    validCycle g s ↔ validCycle g t := by
  have hwe : edgeWire g (i, j) < g.edges.length := indexOf_lt_length_beq he
  have hwa : edgeWire g (i, k) < g.edges.length := indexOf_lt_length_beq ha
  have hwb : edgeWire g (k, j) < g.edges.length := indexOf_lt_length_beq hb
  have hnf := netFlow_flip g hnd i j k he ha hb hki hkj t s hoff h1 h2 h3 hpat
  constructor
  · rintro ⟨hzero, _, _⟩
    refine ⟨fun v hv => (hnf v).trans (hzero v hv), ?_, ?_⟩
    · rcases hpat with ⟨p1, p2, p3⟩ | ⟨p1, p2, p3⟩
      · refine selCount_pos g t _ hwa ?_
        rw [h2, p2]
        rfl
      · refine selCount_pos g t _ hwe ?_
        rw [h1, p1]
        rfl
    · rcases hpat with ⟨p1, p2, p3⟩ | ⟨p1, p2, p3⟩
      · refine selCount_lt g t _ hwe ?_
        rw [h1, p1]
        rfl
      · refine selCount_lt g t _ hwa ?_
        rw [h2, p2]
        rfl
  · rintro ⟨hzero, _, _⟩
    refine ⟨fun v hv => (hnf v).symm.trans (hzero v hv), ?_, ?_⟩
    · rcases hpat with ⟨p1, p2, p3⟩ | ⟨p1, p2, p3⟩
      · exact selCount_pos g s _ hwe p1
      · exact selCount_pos g s _ hwa p2
    · rcases hpat with ⟨p1, p2, p3⟩ | ⟨p1, p2, p3⟩
      · exact selCount_lt g s _ hwa p2
      · exact selCount_lt g s _ hwe p1

theorem cx_sum_zeros {α : Type} (l : List α) :
    (l.map (fun _ => (0 : Cx))).sum = 0 := by
  induction l with
  | nil => rfl
  | cons x xs ih =>
    rw [List.map_cons, List.sum_cons, ih, add_zero]

/-- One four-term block has zero matrix entry between a valid cycle state
and an invalid one (in either position). -/
theorem blockEntry_vanish (g : Gr ℕ) (hnd : g.edges.Nodup) (i j k : ℕ)
    (he : (i, j) ∈ g.edges) (ha : (i, k) ∈ g.edges) (hb : (k, j) ∈ g.edges)
    (hki : k ≠ i) (hkj : k ≠ j) (r c : ℕ → Bool)
    (hdis : ¬ (validCycle g c ↔ validCycle g r)) :
    entryH g.edges.length (blockTerms (edgeWire g (i, j))
      (edgeWire g (i, k)) (edgeWire g (k, j))) r c = 0 := by
  by_cases hflip : flipPat g.edges.length (edgeWire g (i, j))
      (edgeWire g (i, k)) (edgeWire g (k, j)) r c
  · rw [entryH_blockTerms_flip _ _ _ _ _ _ hflip]
    by_cases hpat : (c (edgeWire g (i, j)) = true ∧
        c (edgeWire g (i, k)) = false ∧ c (edgeWire g (k, j)) = false) ∨
      (c (edgeWire g (i, j)) = false ∧ c (edgeWire g (i, k)) = true ∧
        c (edgeWire g (k, j)) = true)
    · exact absurd (validCycle_flip_iff g hnd i j k he ha hb hki hkj r c
        hflip.1 hflip.2.1 hflip.2.2.1 hflip.2.2.2 hpat) hdis
    · unfold patVal
      rw [if_neg]
      intro hcon
      apply hpat
      simp only [Bool.not_eq_true] at hcon
      exact hcon
  · show Cx.rsmul (1/4) (entryOp g.edges.length
        (Op.tensor [(.X, edgeWire g (i, j)), (.X, edgeWire g (i, k)),
          (.X, edgeWire g (k, j))]) r c) +
      (Cx.rsmul (1/4) (entryOp g.edges.length
        (Op.tensor [(.Y, edgeWire g (i, j)), (.Y, edgeWire g (i, k)),
          (.X, edgeWire g (k, j))]) r c) +
      (Cx.rsmul (1/4) (entryOp g.edges.length
        (Op.tensor [(.Y, edgeWire g (i, j)), (.X, edgeWire g (i, k)),
          (.Y, edgeWire g (k, j))]) r c) +
      (Cx.rsmul (-(1/4)) (entryOp g.edges.length
        (Op.tensor [(.X, edgeWire g (i, j)), (.Y, edgeWire g (i, k)),
          (.Y, edgeWire g (k, j))]) r c) + 0))) = 0
    rw [entryOp_blockterm_zero _ _ _ _ _ _ _ (Or.inl rfl) (Or.inl rfl)
        (Or.inl rfl) r c hflip,
      entryOp_blockterm_zero _ _ _ _ _ _ _ (Or.inr rfl) (Or.inr rfl)
        (Or.inl rfl) r c hflip,
      entryOp_blockterm_zero _ _ _ _ _ _ _ (Or.inr rfl) (Or.inl rfl)
        (Or.inr rfl) r c hflip,
      entryOp_blockterm_zero _ _ _ _ _ _ _ (Or.inl rfl) (Or.inr rfl)
        (Or.inr rfl) r c hflip]
    simp only [Cx.rsmul_zero]
    refine Cx.ext2 ?_ ?_ <;> simp

/-- C2: for every directed graph (without duplicate edges), the Hamiltonian
returned by `cycle_mixer` has zero matrix element between any valid-cycle
basis state (zero net flow at every node, excluding the empty and full edge
sets) and any invalid basis state, in both directions; so its generated
unitary never mixes the two sets. -/
theorem cycle_mixer_no_crossing (g : Gr ℕ) (hnd : g.edges.Nodup)
    (s t : ℕ → Bool) (hs : validCycle g s) (ht : ¬ validCycle g t) :
    entryH g.edges.length (cycle_mixer g) t s = 0 ∧
    entryH g.edges.length (cycle_mixer g) s t = 0 := by
  have hcore : ∀ r c : ℕ → Bool, ¬ (validCycle g c ↔ validCycle g r) →
      entryH g.edges.length (cycle_mixer g) r c = 0 := by
    intro r c hdis
    unfold cycle_mixer
    rw [entryH_flatMap]
    have hz : ∀ e ∈ g.edges,
        entryH g.edges.length (_partial_cycle_mixer g e) r c = 0 := by
      intro e he
      unfold _partial_cycle_mixer
      rw [entryH_flatMap]
      have hzk : ∀ k ∈ g.nodes, entryH g.edges.length
          (if k = e.1 ∨ k = e.2 then []
           else if (e.1, k) ∈ g.edges ∧ (k, e.2) ∈ g.edges then
             blockTerms (edgeWire g e) (edgeWire g (e.1, k)) (edgeWire g (k, e.2))
           else []) r c = 0 := by
        intro k hk
        by_cases hke : k = e.1 ∨ k = e.2
        · rw [if_pos hke]
          exact entryH_nil _ _ _
        · rw [if_neg hke]
          push_neg at hke
          by_cases hedges : (e.1, k) ∈ g.edges ∧ (k, e.2) ∈ g.edges
          · rw [if_pos hedges]
            exact blockEntry_vanish g hnd e.1 e.2 k he hedges.1 hedges.2
              hke.1 hke.2 r c hdis
          · rw [if_neg hedges]
            exact entryH_nil _ _ _
      rw [List.map_congr_left hzk]
      exact cx_sum_zeros _
    rw [List.map_congr_left hz]
    exact cx_sum_zeros _
  exact ⟨hcore t s (fun hiff => ht (hiff.1 hs)),
    hcore s t (fun hiff => ht (hiff.2 hs))⟩

/-- Witness for C2 on the complete 3-node digraph of `test_cycle_mixer`:
the 2-cycle through nodes 0 and 1 (wires 0 and 2) is a valid state, the
empty selection is invalid, and the mixer does not connect them. -/
theorem cycle_mixer_no_crossing_witness :
    (([(0, 1), (0, 2), (1, 0), (1, 2), (2, 0), (2, 1)] : List (ℕ × ℕ)).Nodup) ∧
    validCycle ⟨[0, 1, 2], [(0, 1), (0, 2), (1, 0), (1, 2), (2, 0), (2, 1)]⟩
      (fun w => w == 0 || w == 2) ∧
    ¬ validCycle ⟨[0, 1, 2], [(0, 1), (0, 2), (1, 0), (1, 2), (2, 0), (2, 1)]⟩
      (fun _ => false) ∧
    (entryH 6 (cycle_mixer ⟨[0, 1, 2], [(0, 1), (0, 2), (1, 0), (1, 2), (2, 0), (2, 1)]⟩)
      (fun _ => false) (fun w => w == 0 || w == 2) = 0 ∧
     entryH 6 (cycle_mixer ⟨[0, 1, 2], [(0, 1), (0, 2), (1, 0), (1, 2), (2, 0), (2, 1)]⟩)
      (fun w => w == 0 || w == 2) (fun _ => false) = 0) :=
  ⟨by decide, by decide, by decide,
    cycle_mixer_no_crossing
      ⟨[0, 1, 2], [(0, 1), (0, 2), (1, 0), (1, 2), (2, 0), (2, 1)]⟩
      (by decide) (fun w => w == 0 || w == 2) (fun _ => false)
      (by decide) (by decide)⟩

end PLQaoa
